import Mathlib

/-!
Verification of the SimpleReader feed-reader core against its specification.

The development shallowly embeds the relevant JavaScript modules:

* `extension/src/utils/storage.js` — the per-feed bounded item cache
  (`saveItems`, `markItemRead`), modelled over association lists that mirror
  JavaScript object key order (insertion order; item ids are assumed not to be
  array-index-like strings, which is the case for guids/links/titles).
* `extension/src/background` (the revision registered as the message handler,
  `refreshAllFeeds` / `addNewFeed` / `deleteFeed`) — modelled as pure state
  transformers that emit a trace of storage operations.
* `extension/src/utils/fetcher.js` — the normalizer (`parseRSS2`, `parseAtom`,
  `parseRSS1`) over a model of `fast-xml-parser` output.
* `extension/src/utils/opml.js` — OPML flatten / generate.

Machine reals, the DOM and the network are out of scope; the network fetch is a
parameter of the orchestrator model, and JavaScript `Date` parsing is modelled
by its outcome (see `StoredItem.pubDate`).
-/

namespace SimpleReader

/-! ## ItemStore model (`storage.js`)

A stored item.  In the source an item is a JS object; the `pubDate` string is
only ever consumed by `new Date(item.pubDate || item.fetchedAt)` inside
`saveItems`' trim comparator, so the model records the *outcome* of that date
parse rather than the raw string:

* `pubDate = none` — the field is absent or the empty string (falsy in JS, so
  `pubDate || fetchedAt` evaluates to `fetchedAt`);
* `pubDate = some none` — the field is a truthy string that JS date parsing
  rejects (`new Date(s)` is an Invalid Date, `NaN` in comparisons);
* `pubDate = some (some t)` — the field parses to the instant `t`
  (milliseconds since the epoch, an integer).

`fetchedAt` is `Date.now()`, always a valid number. -/
structure StoredItem where
  id : String
  feedId : String
  title : String
  link : String
  content : String
  pubDate : Option (Option Int)
  read : Bool
  fetchedAt : Int
deriving DecidableEq, Repr

/-- Effective timestamp used by the trim comparator: the value of
`new Date(item.pubDate || item.fetchedAt)`; `none` models `NaN`. -/
def effTs (i : StoredItem) : Option Int :=
  match i.pubDate with
  | none => some i.fetchedAt
  | some o => o

/-- Comparator order of `saveItems`' trim, as a Boolean "may precede" relation.
The source sorts with `(a, b) => new Date(b...) - new Date(a...)` (descending
effective timestamp); per ECMAScript `SortCompare`, a `NaN` comparator result
counts as `0`, i.e. a tie, so an item with an unparseable date ties with
everything. `itemLe a b` holds when the comparator allows `a` to precede `b`. -/
def itemLe (a b : StoredItem) : Bool :=
  match effTs a, effTs b with
  | some x, some y => decide (y ≤ x)
  | _, _ => true

/-- Stable insertion of `x` into `l`: `x` is placed before the first element it
may precede.  For a consistent comparator this agrees with the (stable)
`Array.prototype.sort`; for an inconsistent comparator ECMAScript leaves the
order implementation-defined and this insertion sort fixes one stable order
(which matches V8 on the run-shaped inputs used below). -/
def insertBy (x : StoredItem) : List StoredItem → List StoredItem
  | [] => [x]
  | y :: ys => if itemLe x y then x :: y :: ys else y :: insertBy x ys

/-- Stable sort modelling `allValues.sort((a, b) => dateB - dateA)`. -/
def sortByDateDesc (l : List StoredItem) : List StoredItem :=
  l.foldr insertBy []

/-- Cap on a partition, `MAX_ITEMS_PER_FEED` in the source. -/
def MAX_ITEMS_PER_FEED : Nat := 200

/-- Merge step of `saveItems`: each incoming item is inserted only if its id is
absent from the accumulated partition (`if (!currentItems[item.id])`); a fresh
id is appended, matching JS object key insertion order. -/
def mergeNew (cur newItems : List StoredItem) : List StoredItem :=
  newItems.foldl (fun acc i => if acc.any (fun j => j.id = i.id) then acc else acc ++ [i]) cur

/-- Model of `saveItems` restricted to the one partition it touches (the source
reads and writes only the `items_<feedId>` key of the first item's feed).
Mirrors the source: early return on an empty batch, first-write-wins merge,
then, only when the partition exceeds the cap, a descending sort by effective
timestamp and `slice(0, MAX_ITEMS_PER_FEED)`; the trimmed object is rebuilt in
sorted order. -/
def saveItems (cur newItems : List StoredItem) : List StoredItem :=
  if newItems = [] then cur
  else
    let merged := mergeNew cur newItems
    if MAX_ITEMS_PER_FEED < merged.length then
      (sortByDateDesc merged).take MAX_ITEMS_PER_FEED
    else merged

/-- Running a sequence of `saveItems` calls on one partition, starting empty. -/
def runSaveItems (batches : List (List StoredItem)) : List StoredItem :=
  batches.foldl saveItems []

/-! Basic lemmas about the sort. -/

theorem itemLe_total (a b : StoredItem) : itemLe a b = true ∨ itemLe b a = true := by
  unfold itemLe
  cases ha : effTs a <;> cases hb : effTs b <;> simp
  omega

theorem length_insertBy (x : StoredItem) (l : List StoredItem) :
    (insertBy x l).length = l.length + 1 := by
  induction l with
  | nil => rfl
  | cons y ys ih =>
    simp only [insertBy]
    split <;> simp [ih]

theorem length_sortByDateDesc (l : List StoredItem) :
    (sortByDateDesc l).length = l.length := by
  induction l with
  | nil => rfl
  | cons y ys ih =>
    simp only [sortByDateDesc, List.foldr] at *
    rw [length_insertBy, ih]
    rfl

theorem mem_insertBy {z x : StoredItem} {l : List StoredItem} :
    z ∈ insertBy x l ↔ z = x ∨ z ∈ l := by
  induction l with
  | nil => simp [insertBy]
  | cons y ys ih =>
    simp only [insertBy]
    split
    · simp
    · simp [ih]; tauto

theorem mem_sortByDateDesc {z : StoredItem} {l : List StoredItem} :
    z ∈ sortByDateDesc l ↔ z ∈ l := by
  induction l with
  | nil => simp [sortByDateDesc]
  | cons y ys ih =>
    simp only [sortByDateDesc, List.foldr] at *
    rw [mem_insertBy, ih]
    simp

/-! ## C3: bounded growth -/

theorem length_saveItems_le (cur newItems : List StoredItem)
    (h : cur.length ≤ MAX_ITEMS_PER_FEED) :
    (saveItems cur newItems).length ≤ MAX_ITEMS_PER_FEED := by
  unfold saveItems
  split
  · exact h
  · simp only []
    split
    · simp
    · omega

/-- C3.  For every sequence of `put` (`saveItems`) calls on one partition, the
partition holds at most 200 items after every call completes. -/
theorem saveItems_bounded (batches : List (List StoredItem)) :
    (runSaveItems batches).length ≤ 200 := by
  suffices h : ∀ cur, cur.length ≤ MAX_ITEMS_PER_FEED →
      (batches.foldl saveItems cur).length ≤ MAX_ITEMS_PER_FEED by
    exact h [] (by simp [MAX_ITEMS_PER_FEED])
  induction batches with
  | nil => intro cur h; simpa using h
  | cons b bs ih =>
    intro cur h
    exact ih _ (length_saveItems_le cur b h)

/-! ## Sort structure lemmas used by C4 and C5 -/

theorem perm_insertBy (x : StoredItem) (l : List StoredItem) :
    List.Perm (insertBy x l) (x :: l) := by
  induction l with
  | nil => exact List.Perm.refl _
  | cons y ys ih =>
    simp only [insertBy]
    split
    · exact List.Perm.refl _
    · exact ((ih.cons y).trans (List.Perm.swap x y ys))

theorem perm_sortByDateDesc (l : List StoredItem) : List.Perm (sortByDateDesc l) l := by
  induction l with
  | nil => exact List.Perm.refl _
  | cons y ys ih =>
    exact (perm_insertBy y (sortByDateDesc ys)).trans (ih.cons y)

/-- The Boolean comparator order as a relation. -/
def leR (a b : StoredItem) : Prop := itemLe a b = true

theorem chain'_insertBy {x : StoredItem} {l : List StoredItem}
    (h : List.Chain' leR l) : List.Chain' leR (insertBy x l) := by
  induction l with
  | nil => simp [insertBy, List.chain'_singleton]
  | cons y ys ih =>
    simp only [insertBy]
    split
    · rename_i hxy
      exact List.Chain'.cons hxy h
    · rename_i hxy
      have hys : List.Chain' leR ys := h.tail
      have htail := ih hys
      refine List.Chain'.cons' htail ?_
      intro w hw
      cases ys with
      | nil =>
        simp only [insertBy, List.head?] at hw
        rcases itemLe_total x y with h1 | h1
        · exact absurd h1 hxy
        · rw [← Option.some_inj.mp hw]
          exact h1
      | cons z zs =>
        simp only [insertBy] at hw
        split at hw
        · simp only [List.head?] at hw
          rcases itemLe_total x y with h1 | h1
          · exact absurd h1 hxy
          · rw [← Option.some_inj.mp hw]
            exact h1
        · simp only [List.head?] at hw
          rw [← Option.some_inj.mp hw]
          exact (List.chain'_cons.mp h).1

theorem chain'_sortByDateDesc (l : List StoredItem) :
    List.Chain' leR (sortByDateDesc l) := by
  induction l with
  | nil => simp [sortByDateDesc]
  | cons y ys ih => exact chain'_insertBy ih

/-- A list already in comparator order is a fixed point of the sort; this is
what makes a re-sort of an already-trimmed partition a no-op. -/
theorem sortByDateDesc_eq_self {l : List StoredItem}
    (h : List.Chain' leR l) : sortByDateDesc l = l := by
  induction l with
  | nil => rfl
  | cons x l' ih =>
    have : sortByDateDesc (x :: l') = insertBy x (sortByDateDesc l') := rfl
    rw [this, ih h.tail]
    cases l' with
    | nil => rfl
    | cons y ys =>
      have h1 : itemLe x y = true := (List.chain'_cons.mp h).1
      simp only [insertBy]
      rw [if_pos h1]

/-! Merge-step lemmas. -/

theorem mergeNew_aux_closure (cur : List StoredItem) :
    ∀ (b acc : List StoredItem),
      (cur.map (fun j => j.id)) ⊆ (acc.map (fun j => j.id)) →
      (∀ y ∈ acc, y ∈ cur ∨ y.id ∉ cur.map (fun j => j.id)) →
      ∀ y ∈ b.foldl (fun acc i =>
        if acc.any (fun j => j.id = i.id) then acc else acc ++ [i]) acc,
      y ∈ cur ∨ y.id ∉ cur.map (fun j => j.id) := by
  intro b
  induction b with
  | nil => intro acc _ hmem y hy; exact hmem y hy
  | cons i b' ih =>
    intro acc hsub hmem y hy
    simp only [List.foldl] at hy
    split at hy
    · exact ih acc hsub hmem y hy
    · rename_i hany
      refine ih (acc ++ [i]) (hsub.trans (by
        intro a ha
        simp only [List.map_append, List.mem_append]
        exact Or.inl ha)) ?_ y hy
      intro z hz
      rcases List.mem_append.mp hz with hz | hz
      · exact hmem z hz
      · simp only [List.mem_singleton] at hz
        subst hz
        right
        intro hc
        rcases List.mem_map.mp (hsub hc) with ⟨w, hw, hwid⟩
        simp only [List.any_eq_true, not_exists, not_and] at hany
        exact hany w hw (by simp [hwid])

theorem mergeNew_of_all_present {cur b : List StoredItem}
    (h : ∀ i ∈ b, cur.any (fun j => j.id = i.id) = true) : mergeNew cur b = cur := by
  unfold mergeNew
  induction b with
  | nil => rfl
  | cons i b' ih =>
    simp only [List.foldl]
    rw [if_pos (h i (by simp))]
    exact ih fun j hj => h j (by simp [hj])

theorem mem_mergeNew_of_id_mem {cur b : List StoredItem} {x : StoredItem}
    (hx : x ∈ mergeNew cur b) (hid : x.id ∈ cur.map (fun j => j.id)) : x ∈ cur := by
  rcases mergeNew_aux_closure cur b cur (fun a ha => ha) (fun y hy => Or.inl hy) x hx
    with h1 | h1
  · exact h1
  · exact absurd hid h1

theorem mem_of_mem_saveItems {cur b : List StoredItem} {x : StoredItem}
    (hx : x ∈ saveItems cur b) : x ∈ mergeNew cur b ∨ x ∈ cur := by
  unfold saveItems at hx
  split at hx
  · exact Or.inr hx
  · simp only [] at hx
    split at hx
    · exact Or.inl ((perm_sortByDateDesc _).mem_iff.mp (List.mem_of_mem_take hx))
    · exact Or.inl hx

/-- Lookup of an item by id, `currentItems[itemId]` in the source. -/
def findItem (p : List StoredItem) (itemId : String) : Option StoredItem :=
  p.find? (fun j => j.id = itemId)

theorem eq_of_mem_of_nodup_ids {p : List StoredItem} {a b : StoredItem}
    (hnd : (p.map (fun j => j.id)).Nodup) (ha : a ∈ p) (hb : b ∈ p)
    (hid : a.id = b.id) : a = b :=
  List.inj_on_of_nodup_map hnd ha hb hid

/-! ## C5: first-write-wins and idempotent ingestion -/

theorem saveItems_keeps_first_write {p b : List StoredItem} {itemId : String}
    {v w : StoredItem} (hnd : (p.map (fun j => j.id)).Nodup)
    (hv : findItem p itemId = some v) (hw : findItem (saveItems p b) itemId = some w) :
    w = v := by
  have hvp : v ∈ p := List.mem_of_find?_eq_some hv
  have hvid : v.id = itemId := by simpa using List.find?_some hv
  have hwmem : w ∈ saveItems p b := List.mem_of_find?_eq_some hw
  have hwid : w.id = itemId := by simpa using List.find?_some hw
  have hwp : w ∈ p := by
    rcases mem_of_mem_saveItems hwmem with h | h
    · exact mem_mergeNew_of_id_mem h (by
        rw [hwid, ← hvid]; exact List.mem_map_of_mem _ hvp)
    · exact h
  exact eq_of_mem_of_nodup_ids hnd hwp hvp (hwid.trans hvid.symm)

theorem mergeNew_singleton (cur : List StoredItem) (i : StoredItem) :
    mergeNew cur [i] =
      if cur.any (fun j => j.id = i.id) then cur else cur ++ [i] := rfl

theorem saveItems_eq_of_ne_nil {cur b : List StoredItem} (hb : b ≠ []) :
    saveItems cur b =
      if MAX_ITEMS_PER_FEED < (mergeNew cur b).length then
        (sortByDateDesc (mergeNew cur b)).take MAX_ITEMS_PER_FEED
      else mergeNew cur b := by
  unfold saveItems
  rw [if_neg hb]

theorem saveItems_of_id_present {p : List StoredItem} {i : StoredItem}
    (hlen : p.length ≤ MAX_ITEMS_PER_FEED)
    (hpres : p.any (fun j => j.id = i.id) = true) :
    saveItems p [i] = p := by
  rw [saveItems_eq_of_ne_nil (by simp)]
  simp only [mergeNew_singleton, if_pos hpres]
  rw [if_neg (by omega)]

/-- Idempotence of a single-item `put`: replaying the same item leaves the
partition exactly as after the first delivery, including when the first
delivery trimmed the partition (possibly evicting the new item itself). -/
theorem saveItems_idem (p : List StoredItem) (i : StoredItem)
    (hnd : (p.map (fun j => j.id)).Nodup) (hlen : p.length ≤ MAX_ITEMS_PER_FEED) :
    saveItems (saveItems p [i]) [i] = saveItems p [i] := by
  by_cases hpres : p.any (fun j => j.id = i.id) = true
  · rw [saveItems_of_id_present hlen hpres, saveItems_of_id_present hlen hpres]
  · have hmerge : mergeNew p [i] = p ++ [i] := by
      rw [mergeNew_singleton, if_neg hpres]
    have hfresh : i.id ∉ p.map (fun j => j.id) := by
      intro hc
      rcases List.mem_map.mp hc with ⟨w, hw, hwid⟩
      exact hpres (List.any_eq_true.mpr ⟨w, hw, by simp [hwid]⟩)
    have hndm : ((p ++ [i]).map (fun j => j.id)).Nodup := by
      simp only [List.map_append, List.map_cons, List.map_nil, List.nodup_append]
      refine ⟨hnd, List.nodup_singleton _, ?_⟩
      intro a ha hb
      simp only [List.mem_singleton] at hb
      exact hfresh (hb ▸ ha)
    by_cases htrim : MAX_ITEMS_PER_FEED < (mergeNew p [i]).length
    · -- the first call trims: its result is a 200-item prefix of the sort
      have hq : saveItems p [i] = (sortByDateDesc (p ++ [i])).take MAX_ITEMS_PER_FEED := by
        unfold saveItems
        rw [if_neg (by simp), if_pos htrim, hmerge]
      have hlen201 : (p ++ [i]).length = MAX_ITEMS_PER_FEED + 1 := by
        simp only [hmerge] at htrim
        simp at htrim ⊢
        omega
      have hperm := perm_sortByDateDesc (p ++ [i])
      have hnds : ((sortByDateDesc (p ++ [i])).map (fun j => j.id)).Nodup :=
        (hperm.map (fun j => j.id)).nodup_iff.mpr hndm
      have hsortlen : (sortByDateDesc (p ++ [i])).length = MAX_ITEMS_PER_FEED + 1 := by
        rw [length_sortByDateDesc, hlen201]
      have hsplit : sortByDateDesc (p ++ [i]) =
          (sortByDateDesc (p ++ [i])).take MAX_ITEMS_PER_FEED ++
          (sortByDateDesc (p ++ [i])).drop MAX_ITEMS_PER_FEED :=
        (List.take_append_drop _ _).symm
      set q := (sortByDateDesc (p ++ [i])).take MAX_ITEMS_PER_FEED with hqdef
      have hqlen : q.length = MAX_ITEMS_PER_FEED := by
        rw [hqdef, List.length_take, hsortlen]
        simp
      have hdroplen : ((sortByDateDesc (p ++ [i])).drop MAX_ITEMS_PER_FEED).length = 1 := by
        rw [List.length_drop, hsortlen]
        exact Nat.add_sub_cancel_left _ _
      have himem : i ∈ sortByDateDesc (p ++ [i]) := hperm.mem_iff.mpr (by simp)
      rw [hq]
      by_cases hiq : i ∈ q
      · -- the new item survived the trim: the second call sees its id present
        have : q.any (fun j => j.id = i.id) = true :=
          List.any_eq_true.mpr ⟨i, hiq, by simp⟩
        exact saveItems_of_id_present (by rw [hqlen]) this
      · -- the new item was evicted: it is the single dropped element, so the
        -- second call rebuilds exactly the already-sorted 201-element list
        have hidrop : i ∈ (sortByDateDesc (p ++ [i])).drop MAX_ITEMS_PER_FEED := by
          rcases (List.mem_append.mp (hsplit ▸ himem)) with h | h
          · exact absurd h hiq
          · exact h
        obtain ⟨z, hz⟩ := List.length_eq_one.mp hdroplen
        have hzi : z = i := by
          rw [hz] at hidrop
          exact (List.mem_singleton.mp hidrop).symm
        have hfull : sortByDateDesc (p ++ [i]) = q ++ [i] := by
          rw [hsplit, hz, hzi]
        have hifresh : i.id ∉ q.map (fun j => j.id) := by
          have h2 := hnds
          rw [hfull] at h2
          simp only [List.map_append, List.map_cons, List.map_nil] at h2
          rcases List.nodup_append.mp h2 with ⟨_, _, hdisj⟩
          intro hc
          exact hdisj hc (List.mem_singleton.mpr rfl)
        have hqfresh : ¬ q.any (fun j => j.id = i.id) = true := by
          intro hc
          rcases List.any_eq_true.mp hc with ⟨w, hw, hwid⟩
          exact hifresh (List.mem_map.mpr ⟨w, hw, by simpa using hwid⟩)
        have hmerge2 : mergeNew q [i] = q ++ [i] := by
          rw [mergeNew_singleton, if_neg hqfresh]
        have hchain : List.Chain' leR (q ++ [i]) := by
          rw [← hfull]
          exact chain'_sortByDateDesc (p ++ [i])
        rw [saveItems_eq_of_ne_nil (by simp), hmerge2,
          if_pos (by simp [hqlen]), sortByDateDesc_eq_self hchain]
        exact List.take_left' hqlen
    · -- no trim in the first call: the merged list survives whole and the
      -- second call finds the id present
      have hq : saveItems p [i] = p ++ [i] := by
        rw [saveItems_eq_of_ne_nil (by simp), hmerge, if_neg (hmerge ▸ htrim)]
      rw [hq]
      have hlen2 : (p ++ [i]).length ≤ MAX_ITEMS_PER_FEED := by
        rw [hmerge] at htrim
        omega
      exact saveItems_of_id_present hlen2
        (List.any_eq_true.mpr ⟨i, by simp, by simp⟩)

/-- C5.  `put` (`saveItems`) inserts an incoming item only if its id is absent
from the partition (first-write-wins): any item found under an id that was
already present is exactly the first-recorded item, every field included; and
calling `put` twice with the same item leaves the partition after the second
call identical to after the first, for every well-formed partition state. -/
theorem saveItems_first_write_wins_and_idempotent
    (p b : List StoredItem) (i : StoredItem) (itemId : String) (v : StoredItem)
    (hnd : (p.map (fun j => j.id)).Nodup) (hlen : p.length ≤ 200) :
    (∀ w, findItem p itemId = some v → findItem (saveItems p b) itemId = some w → w = v)
    ∧ saveItems (saveItems p [i]) [i] = saveItems p [i] :=
  ⟨fun _ hv hw => saveItems_keeps_first_write hnd hv hw,
   saveItems_idem p i hnd hlen⟩

/-- Sample item used by concrete witnesses below. -/
def mkItem (itemId : String) (ts : Int) : StoredItem :=
  { id := itemId, feedId := "feed1", title := "t", link := "l", content := "c",
    pubDate := some (some ts), read := false, fetchedAt := 0 }

theorem saveItems_first_write_wins_and_idempotent_witness :
    (∀ w, findItem [mkItem "a" 5] "a" = some (mkItem "a" 5) →
      findItem (saveItems [mkItem "a" 5] [mkItem "b" 9]) "a" = some w → w = mkItem "a" 5)
    ∧ saveItems (saveItems [mkItem "a" 5] [mkItem "b" 9]) [mkItem "b" 9] =
        saveItems [mkItem "a" 5] [mkItem "b" 9] :=
  saveItems_first_write_wins_and_idempotent [mkItem "a" 5] [mkItem "b" 9]
    (mkItem "b" 9) "a" (mkItem "a" 5) (by decide) (by decide)

/-! ## C4: recency eviction

The comparison relation `itemLe` orders items by effective timestamp only when
both dates are defined; `effVal` reads off the defined value. -/

/-- Defined effective timestamp, valid whenever `effTs` is `some`. -/
def effVal (i : StoredItem) : Int := (effTs i).getD 0

theorem effVal_le_of_itemLe {a b : StoredItem} (ha : (effTs a).isSome)
    (hb : (effTs b).isSome) (h : itemLe a b = true) : effVal b ≤ effVal a := by
  rcases Option.isSome_iff_exists.mp ha with ⟨x, hx⟩
  rcases Option.isSome_iff_exists.mp hb with ⟨y, hy⟩
  unfold itemLe at h
  unfold effVal
  rw [hx, hy] at h ⊢
  simpa using h

/-- In a comparator-ordered list of items whose dates are all defined, every
later element has an effective timestamp no larger than every earlier one. -/
theorem pairwise_of_chain'_defined :
    ∀ {l : List StoredItem}, List.Chain' leR l → (∀ x ∈ l, (effTs x).isSome) →
    List.Pairwise (fun a b => effVal b ≤ effVal a) l := by
  intro l
  induction l with
  | nil => intro _ _; exact List.Pairwise.nil
  | cons x l' ih =>
    intro hc hdef
    have htail := ih hc.tail (fun y hy => hdef y (by simp [hy]))
    refine List.pairwise_cons.mpr ⟨?_, htail⟩
    intro y hy
    cases l' with
    | nil => cases hy
    | cons z rest =>
      have hxz : effVal z ≤ effVal x :=
        effVal_le_of_itemLe (hdef x (by simp)) (hdef z (by simp))
          (List.chain'_cons.mp hc).1
      rcases List.mem_cons.mp hy with rfl | hyr
      · exact hxz
      · exact le_trans (List.rel_of_pairwise_cons htail hyr) hxz

/-- When every incoming id is globally fresh, the merge step is a plain
append. -/
theorem mergeNew_of_nodup_append {cur b : List StoredItem}
    (h : ((cur ++ b).map (fun j => j.id)).Nodup) : mergeNew cur b = cur ++ b := by
  induction b generalizing cur with
  | nil => simp [mergeNew]
  | cons i b' ih =>
    have hstep : mergeNew cur (i :: b') = mergeNew (cur ++ [i]) b' := by
      unfold mergeNew
      simp only [List.foldl]
      rw [if_neg ?_]
      intro hc
      rcases List.any_eq_true.mp hc with ⟨w, hw, hwid⟩
      have hii : i.id ∈ (b'.map (fun j => j.id)) ∨ i.id = i.id := Or.inr rfl
      have hmw : w.id ∈ cur.map (fun j => j.id) := List.mem_map_of_mem _ hw
      have hdisj := (List.nodup_append.mp (by simpa using h)).2.2
      exact hdisj hmw (by simp [show w.id = i.id by simpa using hwid])
    rw [hstep, ih (by simpa using h)]
    simp

/-- Partition invariant for the recency-eviction proof: `R` (the stored
partition) is exactly a maximal-timestamp selection from `S` (everything
delivered so far). -/
def TopSelection (S R : List StoredItem) : Prop :=
  (∀ r ∈ R, r ∈ S) ∧
  (R.map (fun j => j.id)).Nodup ∧
  R.length = min S.length MAX_ITEMS_PER_FEED ∧
  (∀ r ∈ R, ∀ s ∈ S, s ∉ R → effVal s ≤ effVal r)

theorem list_exists_not_mem_of_lengths {R R' : List StoredItem}
    (hndR : R.Nodup) (hndR' : R'.Nodup) (hlen : R'.length ≤ R.length)
    {r : StoredItem} (hr : r ∈ R') (hrnot : r ∉ R) : ∃ x ∈ R, x ∉ R' := by
  by_contra hc
  push_neg at hc
  have hsub : R.toFinset ⊆ R'.toFinset := by
    intro a ha
    exact List.mem_toFinset.mpr (hc a (List.mem_toFinset.mp ha))
  have hcard : R'.toFinset.card ≤ R.toFinset.card := by
    rw [List.toFinset_card_of_nodup hndR, List.toFinset_card_of_nodup hndR']
    exact hlen
  have heq : R.toFinset = R'.toFinset := Finset.eq_of_subset_of_card_le hsub hcard
  exact hrnot (List.mem_toFinset.mp (heq ▸ List.mem_toFinset.mpr hr))

theorem list_mem_of_subset_of_length_le {A B : List StoredItem}
    (hA : A.Nodup) (hsub : ∀ a ∈ A, a ∈ B) (hlen : B.length ≤ A.length)
    {s : StoredItem} (hs : s ∈ B) : s ∈ A := by
  have hfin : A.toFinset ⊆ B.toFinset := by
    intro a ha
    exact List.mem_toFinset.mpr (hsub a (List.mem_toFinset.mp ha))
  have hcard : B.toFinset.card ≤ A.toFinset.card := by
    calc B.toFinset.card ≤ B.length := B.toFinset_card_le
    _ ≤ A.length := hlen
    _ = A.toFinset.card := (List.toFinset_card_of_nodup hA).symm
  have heq : A.toFinset = B.toFinset := Finset.eq_of_subset_of_card_le hfin hcard
  exact List.mem_toFinset.mp (heq ▸ List.mem_toFinset.mpr hs)

/-- One `saveItems` call preserves the maximal-selection invariant, provided
all delivered ids are globally fresh and all dates are defined. -/
theorem topSelection_step {S R b : List StoredItem}
    (hinv : TopSelection S R)
    (hnd : ((S ++ b).map (fun j => j.id)).Nodup)
    (hdefS : ∀ x ∈ S, (effTs x).isSome)
    (hdefb : ∀ x ∈ b, (effTs x).isSome) :
    TopSelection (S ++ b) (saveItems R b) := by
  obtain ⟨hsub, hndR, hlen, hdom⟩ := hinv
  by_cases hb : b = []
  · subst hb
    simpa [saveItems] using ⟨hsub, hndR, hlen, hdom⟩
  · have hndSb := hnd
    rw [List.map_append, List.nodup_append] at hndSb
    obtain ⟨hndS, hndb, hdisj⟩ := hndSb
    have hidsub : ∀ a ∈ R.map (fun j => j.id), a ∈ S.map (fun j => j.id) := by
      intro a ha
      rcases List.mem_map.mp ha with ⟨w, hw, rfl⟩
      exact List.mem_map_of_mem _ (hsub w hw)
    have hndRb : ((R ++ b).map (fun j => j.id)).Nodup := by
      rw [List.map_append, List.nodup_append]
      exact ⟨hndR, hndb, fun a ha hb' => hdisj (hidsub a ha) hb'⟩
    have hmerge : mergeNew R b = R ++ b := mergeNew_of_nodup_append hndRb
    have hbpos : 0 < b.length := List.length_pos.mpr hb
    have hSnodup : S.Nodup := List.Nodup.of_map _ hndS
    have hRnodup : R.Nodup := List.Nodup.of_map _ hndR
    have hRSb_disj : ∀ x ∈ R, x ∉ b := by
      intro x hx hxb
      exact hdisj (hidsub _ (List.mem_map_of_mem _ hx)) (List.mem_map_of_mem _ hxb)
    rw [saveItems_eq_of_ne_nil hb, hmerge]
    by_cases htrim : MAX_ITEMS_PER_FEED < (R ++ b).length
    · rw [if_pos htrim]
      -- the trim keeps a 200-item prefix of the comparator-ordered list
      have hperm := perm_sortByDateDesc (R ++ b)
      have hdefRb : ∀ x ∈ sortByDateDesc (R ++ b), (effTs x).isSome := by
        intro x hx
        rcases List.mem_append.mp (hperm.mem_iff.mp hx) with h | h
        · exact hdefS x (hsub x h)
        · exact hdefb x h
      have hpair := pairwise_of_chain'_defined (chain'_sortByDateDesc (R ++ b)) hdefRb
      have hsplit :
          sortByDateDesc (R ++ b) =
            (sortByDateDesc (R ++ b)).take MAX_ITEMS_PER_FEED ++
            (sortByDateDesc (R ++ b)).drop MAX_ITEMS_PER_FEED :=
        (List.take_append_drop _ _).symm
      have hcross := (List.pairwise_append.mp (hsplit ▸ hpair)).2.2
      have hsortlen : (sortByDateDesc (R ++ b)).length = (R ++ b).length :=
        length_sortByDateDesc _
      have htakelen :
          ((sortByDateDesc (R ++ b)).take MAX_ITEMS_PER_FEED).length =
            MAX_ITEMS_PER_FEED := by
        rw [List.length_take, hsortlen]
        omega
      have htakesub : ∀ r ∈ (sortByDateDesc (R ++ b)).take MAX_ITEMS_PER_FEED,
          r ∈ R ++ b := by
        intro r hr
        exact hperm.mem_iff.mp (List.mem_of_mem_take hr)
      have hndsort : ((sortByDateDesc (R ++ b)).map (fun j => j.id)).Nodup :=
        ((hperm.map (fun j => j.id)).nodup_iff).mpr hndRb
      have hndtake :
          (((sortByDateDesc (R ++ b)).take MAX_ITEMS_PER_FEED).map
            (fun j => j.id)).Nodup :=
        hndsort.sublist ((List.take_sublist _ _).map _)
      have hdropmem : ∀ x ∈ R ++ b, x ∉ (sortByDateDesc (R ++ b)).take MAX_ITEMS_PER_FEED →
          x ∈ (sortByDateDesc (R ++ b)).drop MAX_ITEMS_PER_FEED := by
        intro x hx hxnot
        rcases List.mem_append.mp (hsplit ▸ hperm.mem_iff.mpr hx) with h | h
        · exact absurd h hxnot
        · exact h
      refine ⟨?_, hndtake, ?_, ?_⟩
      · intro r hr
        rcases List.mem_append.mp (htakesub r hr) with h | h
        · exact List.mem_append.mpr (Or.inl (hsub r h))
        · exact List.mem_append.mpr (Or.inr h)
      · rw [htakelen]
        have hSR : R.length ≤ S.length := by
          rw [hlen]; omega
        simp only [List.length_append] at htrim ⊢
        omega
      · intro r hr s hs hsnot
        have hrRb : r ∈ R ++ b := htakesub r hr
        have hmain : ∀ x ∈ R ++ b, x ∉ (sortByDateDesc (R ++ b)).take MAX_ITEMS_PER_FEED →
            effVal x ≤ effVal r := by
          intro x hx hxnot
          exact hcross r hr x (hdropmem x hx hxnot)
        rcases List.mem_append.mp hs with hsS | hsb
        · by_cases hsR : s ∈ R
          · exact hmain s (List.mem_append.mpr (Or.inl hsR)) hsnot
          · -- `s` was evicted in an earlier cycle
            by_cases hScap : S.length ≤ MAX_ITEMS_PER_FEED
            · -- impossible: the partition then holds all of `S`
              have hRS : R.length = S.length := by omega
              exact absurd
                (list_mem_of_subset_of_length_le hRnodup hsub (le_of_eq hRS.symm) hsS)
                hsR
            · have hR200 : R.length = MAX_ITEMS_PER_FEED := by omega
              rcases List.mem_append.mp hrRb with hrR | hrb
              · exact hdom r hrR s hsS hsR
              · -- a new item was kept, so some old item was just evicted
                have hrnotR : r ∉ R := fun hc => hRSb_disj r hc hrb
                obtain ⟨x, hxR, hxnot⟩ :=
                  list_exists_not_mem_of_lengths hRnodup
                    (List.Nodup.of_map _ hndtake)
                    (by rw [htakelen, hR200]) hr hrnotR
                calc effVal s ≤ effVal x := hdom x hxR s hsS hsR
                  _ ≤ effVal r := hmain x (List.mem_append.mpr (Or.inl hxR)) hxnot
        · exact hmain s (List.mem_append.mpr (Or.inr hsb)) hsnot
    · rw [if_neg htrim]
      have hlenRb : (R ++ b).length ≤ MAX_ITEMS_PER_FEED := by omega
      refine ⟨?_, hndRb, ?_, ?_⟩
      · intro r hr
        rcases List.mem_append.mp hr with h | h
        · exact List.mem_append.mpr (Or.inl (hsub r h))
        · exact List.mem_append.mpr (Or.inr h)
      · simp only [List.length_append] at hlenRb ⊢
        omega
      · intro r hr s hs hsnot
        rcases List.mem_append.mp hs with hsS | hsb
        · by_cases hsR : s ∈ R
          · exact absurd (List.mem_append.mpr (Or.inl hsR)) hsnot
          · -- `S` fits in the partition entirely, so no item was ever evicted
            have hRS : R.length = S.length := by
              simp only [List.length_append] at hlenRb
              omega
            exact absurd
              (list_mem_of_subset_of_length_le hRnodup hsub (le_of_eq hRS.symm) hsS)
              hsR
        · exact absurd (List.mem_append.mpr (Or.inr hsb)) hsnot

/-- Over a whole delivery history with globally fresh ids and defined dates,
the stored partition is always a maximal-timestamp selection of everything
delivered. -/
theorem runSaveItems_topSelection (batches : List (List StoredItem))
    (hnd : (batches.flatten.map (fun j => j.id)).Nodup)
    (hdef : ∀ x ∈ batches.flatten, (effTs x).isSome) :
    TopSelection batches.flatten (runSaveItems batches) := by
  unfold runSaveItems
  induction batches using List.reverseRecOn with
  | nil =>
    exact ⟨by simp, by simp, by simp [MAX_ITEMS_PER_FEED], by simp⟩
  | append_singleton bs b ih =>
    rw [List.foldl_append]
    simp only [List.foldl_cons, List.foldl_nil]
    rw [List.flatten_concat] at hnd hdef ⊢
    refine topSelection_step (ih ?_ ?_) hnd ?_ ?_
    · exact (List.nodup_append.mp (by simpa using hnd)).1
    · intro x hx
      exact hdef x (List.mem_append.mpr (Or.inl hx))
    · intro x hx
      exact hdef x (List.mem_append.mpr (Or.inl hx))
    · intro x hx
      exact hdef x (List.mem_append.mpr (Or.inr hx))

/-- C4 (amended).  Once total inflow exceeds the cap, the retained partition
holds exactly 200 items drawn from everything delivered, and no discarded
delivery has a larger effective timestamp than any retained item — provided
ids are globally fresh and every delivered item carries a parseable or absent
`pubDate` (the source does not fall back to `fetchedAt` for an unparseable
date, see the counterexample). -/
theorem saveItems_recency_eviction (batches : List (List StoredItem))
    (hnd : (batches.flatten.map (fun j => j.id)).Nodup)
    (hdef : ∀ x ∈ batches.flatten, (effTs x).isSome)
    (hbig : 200 < batches.flatten.length) :
    (runSaveItems batches).length = 200 ∧
    (∀ r ∈ runSaveItems batches, r ∈ batches.flatten) ∧
    (∀ r ∈ runSaveItems batches, ∀ s ∈ batches.flatten,
      s ∉ runSaveItems batches → effVal s ≤ effVal r) := by
  obtain ⟨hsub, _, hlen, hdom⟩ := runSaveItems_topSelection batches hnd hdef
  refine ⟨?_, hsub, hdom⟩
  have hM : MAX_ITEMS_PER_FEED = 200 := rfl
  omega

/-- Claimed effective timestamp of C4 as the specification words it: `pubDate`
falling back to `fetchedAt` when the date is absent **or unparseable**. -/
def effTsClaimed (i : StoredItem) : Int :=
  match i.pubDate with
  | some (some t) => t
  | _ => i.fetchedAt

/-- Statement of claim C4 over the code model: whenever total inflow (with
globally fresh ids and pairwise-distinct claimed timestamps) exceeds the cap,
the retained set is exactly the 200 items with the largest claimed effective
timestamp among everything ever delivered. -/
def ClaimC4 : Prop :=
  ∀ batches : List (List StoredItem),
    (batches.flatten.map (fun j => j.id)).Nodup →
    List.Pairwise (fun a b => effTsClaimed a ≠ effTsClaimed b) batches.flatten →
    200 < batches.flatten.length →
    (runSaveItems batches).length = 200 ∧
    (∀ r ∈ runSaveItems batches, r ∈ batches.flatten) ∧
    (∀ r ∈ runSaveItems batches, ∀ s ∈ batches.flatten,
      s ∉ runSaveItems batches → effTsClaimed s ≤ effTsClaimed r)

/-- Item id made of `k` repetitions of one character — injective by length. -/
def repId (k : Nat) : String := String.mk (List.replicate k 'a')

theorem repId_injective : Function.Injective repId := by
  intro a b h
  have hdata : List.replicate a 'a' = List.replicate b 'a' := congrArg String.data h
  have := congrArg List.length hdata
  simpa using this

/-- Item with an unparseable (`NaN`) publication date but a very late
`fetchedAt`; under the claimed fallback it would be the most recent item. -/
def nanItem : StoredItem :=
  { id := repId 200, feedId := "feed1", title := "t", link := "l", content := "c",
    pubDate := some none, read := false, fetchedAt := 1000000 }

/-- The 201-item delivery of the counterexample: 200 items with parseable
dates `200, 199, …, 1` in comparator order, then the `NaN` item. -/
def cexItem (k : Nat) : StoredItem :=
  if k < 200 then mkItem (repId k) (200 - (k : Int)) else nanItem

def cexBatch : List StoredItem := (List.range 201).map cexItem

theorem cexItem_id (k : Nat) (hk : k ≤ 200) : (cexItem k).id = repId k := by
  unfold cexItem
  split
  · rfl
  · have : k = 200 := by omega
    rw [this]
    rfl

theorem cexBatch_nodup_ids : (cexBatch.map (fun j => j.id)).Nodup := by
  unfold cexBatch
  rw [List.map_map]
  have heq : (List.range 201).map ((fun j => j.id) ∘ cexItem) = (List.range 201).map repId := by
    refine List.map_congr_left fun k hk => ?_
    have hk' : k ≤ 200 := by
      have := List.mem_range.mp hk
      omega
    exact cexItem_id k hk'
  rw [heq]
  exact (List.nodup_range 201).map repId_injective

theorem itemLe_nanItem (a : StoredItem) : itemLe a nanItem = true := by
  unfold itemLe
  have h : effTs nanItem = none := rfl
  rw [h]
  cases effTs a <;> rfl

theorem cexBatch_chain : List.Chain' leR cexBatch := by
  unfold cexBatch
  rw [List.chain'_map]
  rw [show (201 : Nat) = Nat.succ 200 from rfl, List.chain'_range_succ]
  intro m hm
  show itemLe (cexItem m) (cexItem (m + 1)) = true
  by_cases hm' : m + 1 < 200
  · unfold cexItem
    rw [if_pos (by omega), if_pos hm']
    simp only [itemLe, effTs, mkItem]
    rw [decide_eq_true_eq]
    push_cast
    omega
  · have h200 : m + 1 = 200 := by omega
    have : cexItem (m + 1) = nanItem := by
      unfold cexItem
      rw [if_neg (by omega)]
    rw [this]
    exact itemLe_nanItem _

theorem runSaveItems_cexBatch :
    runSaveItems [cexBatch] = (List.range 200).map cexItem := by
  have hne : cexBatch ≠ [] := by simp [cexBatch]
  have hlen : cexBatch.length = 201 := by simp [cexBatch]
  have hmerge : mergeNew [] cexBatch = cexBatch :=
    mergeNew_of_nodup_append (by simpa using cexBatch_nodup_ids)
  have hM : MAX_ITEMS_PER_FEED = 200 := rfl
  unfold runSaveItems
  simp only [List.foldl_cons, List.foldl_nil]
  show saveItems [] cexBatch = (List.range 200).map cexItem
  rw [saveItems_eq_of_ne_nil hne]
  simp only [List.nil_append] at hmerge
  rw [hmerge, if_pos (by omega), sortByDateDesc_eq_self cexBatch_chain]
  unfold cexBatch
  rw [hM, ← List.map_take, List.take_range]
  norm_num

theorem effTsClaimed_cexItem (k : Nat) :
    effTsClaimed (cexItem k) = if k < 200 then (200 - (k : Int)) else 1000000 := by
  unfold cexItem
  split
  · rfl
  · rfl

theorem cexBatch_pairwise_claimed :
    List.Pairwise (fun a b => effTsClaimed a ≠ effTsClaimed b) cexBatch := by
  unfold cexBatch
  rw [List.pairwise_map]
  refine List.Pairwise.imp_of_mem ?_ (List.pairwise_lt_range 201)
  intro k1 k2 h1 h2 hlt
  have hb1 : k1 < 201 := List.mem_range.mp h1
  have hb2 : k2 < 201 := List.mem_range.mp h2
  rw [effTsClaimed_cexItem, effTsClaimed_cexItem]
  by_cases hc2 : k2 < 200
  · rw [if_pos (by omega), if_pos hc2]
    intro hc
    omega
  · rw [if_pos (by omega), if_neg hc2]
    intro hc
    omega

/-- Counterexample to C4 as stated: deliver 200 items with parseable dates
`200 … 1` followed by one item whose `pubDate` is present but unparseable and
whose `fetchedAt` is far in the future.  The claimed fallback makes it the most
recent item, yet the code compares its `NaN` date as a tie (ECMAScript
`SortCompare`), leaves it last, and evicts it. -/
theorem saveItems_recency_eviction_cex : ¬ ClaimC4 := by
  intro h
  obtain ⟨hlen, hsub, hdom⟩ := h [cexBatch]
    (by simpa using cexBatch_nodup_ids)
    (by simpa using cexBatch_pairwise_claimed)
    (by simp [cexBatch])
  have hr0 : cexItem 0 ∈ runSaveItems [cexBatch] := by
    rw [runSaveItems_cexBatch]
    exact List.mem_map_of_mem _ (List.mem_range.mpr (by omega))
  have hnan_eq : cexItem 200 = nanItem := by
    unfold cexItem
    rw [if_neg (by omega)]
  have hnan_mem : nanItem ∈ ([cexBatch] : List (List StoredItem)).flatten := by
    simp only [List.flatten_cons, List.flatten_nil, List.append_nil]
    rw [← hnan_eq]
    exact List.mem_map_of_mem _ (List.mem_range.mpr (by omega))
  have hnan_notin : nanItem ∉ runSaveItems [cexBatch] := by
    rw [runSaveItems_cexBatch]
    intro hc
    rcases List.mem_map.mp hc with ⟨k, hk, heq⟩
    have hk' : k < 200 := List.mem_range.mp hk
    have hid := congrArg StoredItem.id heq
    rw [cexItem_id k (by omega)] at hid
    have : k = 200 := repId_injective (by simpa [nanItem] using hid)
    omega
  have hle := hdom _ hr0 nanItem hnan_mem hnan_notin
  have h1 : effTsClaimed nanItem = 1000000 := rfl
  have h2 : effTsClaimed (cexItem 0) = 200 := by
    rw [effTsClaimed_cexItem]
    norm_num
  rw [h1, h2] at hle
  omega

/-- Witness batch for the amended C4: 201 items, all ids fresh, all dates
parseable, timestamps `200 … 0`. -/
def wItem (k : Nat) : StoredItem := mkItem (repId k) (200 - (k : Int))

def wBatch : List StoredItem := (List.range 201).map wItem

theorem saveItems_recency_eviction_witness :
    (runSaveItems [wBatch]).length = 200 ∧
    (∀ r ∈ runSaveItems [wBatch], r ∈ ([wBatch] : List (List StoredItem)).flatten) ∧
    (∀ r ∈ runSaveItems [wBatch], ∀ s ∈ ([wBatch] : List (List StoredItem)).flatten,
      s ∉ runSaveItems [wBatch] → effVal s ≤ effVal r) := by
  refine saveItems_recency_eviction [wBatch] ?_ ?_ ?_
  · simp only [List.flatten_cons, List.flatten_nil, List.append_nil]
    unfold wBatch
    rw [List.map_map]
    have heq : (List.range 201).map ((fun j => j.id) ∘ wItem) = (List.range 201).map repId :=
      List.map_congr_left fun k _ => rfl
    rw [heq]
    exact (List.nodup_range 201).map repId_injective
  · intro x hx
    simp only [List.flatten_cons, List.flatten_nil, List.append_nil] at hx
    rcases List.mem_map.mp hx with ⟨k, _, rfl⟩
    rfl
  · simp [wBatch]

/-! ## C10: `markItemRead` frame conditions

The item tier of `chrome.storage.local` is modelled as an association list
from feed id to partition (one entry per `items_<feedId>` key, in key order).
-/

/-- Local item storage: one partition per feed id. -/
abbrev ItemStore := List (String × List StoredItem)

/-- Model of `chrome.storage.local.get([key])` followed by `data[key] || {}`. -/
def storeGet (s : ItemStore) (feedId : String) : List StoredItem :=
  match s.find? (fun kv => kv.1 = feedId) with
  | some kv => kv.2
  | none => []

/-- Model of `chrome.storage.local.set({ [key]: partition })`: replaces the
key when present, creates it otherwise. -/
def storeSet (s : ItemStore) (feedId : String) (p : List StoredItem) : ItemStore :=
  if s.any (fun kv => kv.1 = feedId) then
    s.map (fun kv => if kv.1 = feedId then (feedId, p) else kv)
  else s ++ [(feedId, p)]

/-- In-place update `currentItems[itemId].read = isRead`: only the entry under
`itemId` is touched and only its `read` field changes. -/
def setReadInPartition (p : List StoredItem) (itemId : String) (isRead : Bool) :
    List StoredItem :=
  p.map fun j => if j.id = itemId then { j with read := isRead } else j

/-- Model of `markItemRead` from `storage.js`: reads the one partition, and
only when the item is present writes the partition back with the flag set; the
Boolean records whether a storage write happened. -/
def markItemRead (s : ItemStore) (itemId feedId : String) (isRead : Bool) :
    ItemStore × Bool :=
  let currentItems := storeGet s feedId
  if currentItems.any (fun j => j.id = itemId) then
    (storeSet s feedId (setReadInPartition currentItems itemId isRead), true)
  else (s, false)

theorem find?_map_update_self (s : ItemStore) (feedId : String) (p : List StoredItem)
    (h : s.any (fun kv => kv.1 = feedId) = true) :
    (s.map (fun kv => if kv.1 = feedId then (feedId, p) else kv)).find?
      (fun kv => kv.1 = feedId) = some (feedId, p) := by
  induction s with
  | nil => simp at h
  | cons kv rest ih =>
    by_cases hk : kv.1 = feedId
    · simp only [List.map_cons, if_pos hk]
      rw [List.find?_cons_of_pos _ (by simp)]
    · simp only [List.map_cons, if_neg hk]
      rw [List.find?_cons_of_neg _ (by simpa using hk)]
      exact ih (by simpa [List.any_cons, hk] using h)

theorem find?_map_update_other (s : ItemStore) {feedId other : String}
    (hne : other ≠ feedId) (p : List StoredItem) :
    (s.map (fun kv => if kv.1 = feedId then (feedId, p) else kv)).find?
      (fun kv => kv.1 = other) = s.find? (fun kv => kv.1 = other) := by
  induction s with
  | nil => rfl
  | cons kv rest ih =>
    by_cases hk : kv.1 = feedId
    · have hko : ¬ kv.1 = other := by rw [hk]; exact fun h => hne h.symm
      simp only [List.map_cons, if_pos hk]
      rw [List.find?_cons_of_neg _ (by simpa using fun h => hne h.symm),
        List.find?_cons_of_neg _ (by simpa using hko)]
      exact ih
    · simp only [List.map_cons, if_neg hk]
      by_cases hko : kv.1 = other
      · rw [List.find?_cons_of_pos _ (by simpa using hko),
          List.find?_cons_of_pos _ (by simpa using hko)]
      · rw [List.find?_cons_of_neg _ (by simpa using hko),
          List.find?_cons_of_neg _ (by simpa using hko)]
        exact ih

theorem storeGet_storeSet_self (s : ItemStore) (feedId : String)
    (p : List StoredItem) : storeGet (storeSet s feedId p) feedId = p := by
  unfold storeSet
  split
  · rename_i hany
    unfold storeGet
    rw [find?_map_update_self s feedId p hany]
  · rename_i hany
    unfold storeGet
    rw [List.find?_append]
    have hnone : s.find? (fun kv => kv.1 = feedId) = none := by
      rw [List.find?_eq_none]
      intro kv hkv hc
      exact hany (List.any_eq_true.mpr ⟨kv, hkv, hc⟩)
    rw [hnone]
    simp [List.find?]

theorem storeGet_storeSet_other (s : ItemStore) {feedId other : String}
    (hne : other ≠ feedId) (p : List StoredItem) :
    storeGet (storeSet s feedId p) other = storeGet s other := by
  unfold storeSet
  split
  · unfold storeGet
    rw [find?_map_update_other s hne p]
  · unfold storeGet
    rw [List.find?_append]
    cases hfind : s.find? (fun kv => kv.1 = other) with
    | some kv => rfl
    | none =>
      simp only [Option.none_or]
      rw [List.find?_cons_of_neg _ (by simpa using fun h => hne h.symm)]
      rfl

/-- C10.  `markItemRead` touches at most the one `items_<feedId>` partition:
when the item is present it writes back that partition with only the matching
item's `read` field replaced (all other fields and items positionally intact)
and leaves every other partition untouched; when the item is absent it
performs no storage write and the whole store is unchanged. -/
theorem markItemRead_frame (s : ItemStore) (itemId feedId : String) (isRead : Bool) :
    ((∃ j ∈ storeGet s feedId, j.id = itemId) →
      (markItemRead s itemId feedId isRead).2 = true ∧
      storeGet (markItemRead s itemId feedId isRead).1 feedId =
        (storeGet s feedId).map
          (fun j => if j.id = itemId then { j with read := isRead } else j) ∧
      (∀ other, other ≠ feedId →
        storeGet (markItemRead s itemId feedId isRead).1 other = storeGet s other))
    ∧ ((¬ ∃ j ∈ storeGet s feedId, j.id = itemId) →
      markItemRead s itemId feedId isRead = (s, false)) := by
  constructor
  · intro hpres
    rcases hpres with ⟨j, hj, hjid⟩
    have hany : (storeGet s feedId).any (fun j => j.id = itemId) = true :=
      List.any_eq_true.mpr ⟨j, hj, by simp [hjid]⟩
    unfold markItemRead
    simp only [hany, if_true]
    refine ⟨by trivial, ?_, ?_⟩
    · exact storeGet_storeSet_self s feedId _
    · intro other hne
      exact storeGet_storeSet_other s hne _
  · intro habs
    have hany : (storeGet s feedId).any (fun j => j.id = itemId) = false := by
      rw [List.any_eq_false]
      intro j hj hc
      exact habs ⟨j, hj, by simpa using hc⟩
    unfold markItemRead
    simp [hany]

/-- Two-partition store used by the C10 witness. -/
def wStore : ItemStore :=
  [("f1", [mkItem "i1" 1, mkItem "i2" 2]), ("f2", [mkItem "i1" 3])]

theorem markItemRead_frame_witness :
    (∃ j ∈ storeGet wStore "f1", j.id = "i1") ∧
    (markItemRead wStore "i1" "f1" true).2 = true ∧
    storeGet (markItemRead wStore "i1" "f1" true).1 "f2" = storeGet wStore "f2" ∧
    markItemRead wStore "zz" "f1" true = (wStore, false) := by
  have hp := (markItemRead_frame wStore "i1" "f1" true).1 (by decide)
  have ha := (markItemRead_frame wStore "zz" "f1" true).2 (by decide)
  exact ⟨by decide, hp.1, hp.2.2 "f2" (by decide), ha⟩

/-! ## Background orchestrator (`refreshAllFeeds`, `addNewFeed`, `deleteFeed`)

The orchestrator is the background revision that threads HTTP validators
through the refresh cycle.  Storage effects are modelled as an emitted trace
of operations; the network fetch is a parameter.
-/

structure Subscription where
  id : String
  url : String
  title : String
  addedAt : Int
deriving DecidableEq, Repr

structure ValidatorRec where
  etag : Option String
  lastModified : Option String
  siteLink : Option String
deriving DecidableEq, Repr

/-- The `feedMeta` object: one validator record per feed id, in key order. -/
abbrev ValidatorMap := List (String × ValidatorRec)

def vLookup (m : ValidatorMap) (feedId : String) : Option ValidatorRec :=
  (m.find? (fun kv => kv.1 = feedId)).map (fun kv => kv.2)

/-- JS object upsert `m[feedId] = v`. -/
def vInsert (m : ValidatorMap) (feedId : String) (v : ValidatorRec) : ValidatorMap :=
  if m.any (fun kv => kv.1 = feedId) then
    m.map (fun kv => if kv.1 = feedId then (feedId, v) else kv)
  else m ++ [(feedId, v)]

/-- JS `delete m[feedId]`. -/
def vErase (m : ValidatorMap) (feedId : String) : ValidatorMap :=
  m.filter (fun kv => ¬ kv.1 = feedId)

/-- Modelled from the spec: the result type of the conditional fetch consumed
by the orchestrator.  The conditional-fetch revision of `fetchFeed` is not in
the source tree (the checked-in `fetcher.js` predates it; see C1); its
contract is reconstructed from §4.1 of the spec and from how
`refreshAllFeeds`/`addNewFeed` consume the result: a `null` resolution means
"not modified", otherwise the feed object carries the title, any
etag/lastModified/siteLink returned by the server, and the normalized items;
a thrown error is the failure case. -/
structure FeedData where
  title : String
  etag : Option String
  lastModified : Option String
  siteLink : Option String
  items : List StoredItem
deriving DecidableEq, Repr

/-- Modelled from the spec: outcome of one `fetchFeed(url, validator)` call as
observed by the orchestrator. -/
inductive FetchOutcome where
  | failure
  | notModified
  | success (fd : FeedData)
deriving DecidableEq, Repr

/-- Persisted-storage writes the background script can perform. -/
inductive StorageOp where
  | saveItemsOp (feedId : String) (items : List StoredItem)
  | saveValidatorsOp (m : ValidatorMap)
  | saveSubsOp (subs : List Subscription)
  | removeItemsOp (feedId : String)
  | updateBadgeOp
  | saveLastRefreshedOp (ts : String)
deriving DecidableEq, Repr

/-- JS truthiness of an optional string. -/
def truthy : Option String → Bool
  | none => false
  | some s => s ≠ ""

def hasValidators (fd : FeedData) : Bool :=
  truthy fd.etag || truthy fd.lastModified || truthy fd.siteLink

/-- Tag of `{...item, feedId: sub.id, fetchedAt: Date.now()}`. -/
def tagItems (items : List StoredItem) (feedId : String) (now : Int) : List StoredItem :=
  items.map fun i => { i with feedId := feedId, fetchedAt := now }

/-- Per-subscription body of `refreshAllFeeds`' `Promise.all`, sequentialized.
A failure is caught at this boundary (`catch` inside the mapped async
function) and contributes nothing; `null` (not modified) contributes nothing;
a change saves the tagged items and stages validators into the working copy
only when the server returned at least one of them. -/
def refreshStep (fetch : Subscription → FetchOutcome) (now : Int)
    (acc : List StorageOp × ValidatorMap) (sub : Subscription) :
    List StorageOp × ValidatorMap :=
  match fetch sub with
  | .failure => acc
  | .notModified => acc
  | .success fd =>
      (acc.1 ++ [.saveItemsOp sub.id (tagItems fd.items sub.id now)],
       if hasValidators fd then
         vInsert acc.2 sub.id ⟨fd.etag, fd.lastModified, fd.siteLink⟩
       else acc.2)

/-- Model of `refreshAllFeeds`: reads subscriptions and validators, returns
early when there are no subscriptions, otherwise processes every source and
then commits — a single validator write with the merged working map, the badge
update, and the completion timestamp. -/
def refreshAllFeeds (subs : List Subscription) (validators : ValidatorMap)
    (fetch : Subscription → FetchOutcome) (now : Int) (nowIso : String) :
    List StorageOp :=
  if subs = [] then []
  else
    let r := subs.foldl (refreshStep fetch now) ([], validators)
    r.1 ++ [.saveValidatorsOp r.2, .updateBadgeOp, .saveLastRefreshedOp nowIso]

/-- Validator staging in isolation (used to characterize the committed map). -/
def stageValidator (fetch : Subscription → FetchOutcome)
    (acc : ValidatorMap) (sub : Subscription) : ValidatorMap :=
  match fetch sub with
  | .success fd =>
      if hasValidators fd then vInsert acc sub.id ⟨fd.etag, fd.lastModified, fd.siteLink⟩
      else acc
  | _ => acc

def stagedValidators (subs : List Subscription) (validators : ValidatorMap)
    (fetch : Subscription → FetchOutcome) : ValidatorMap :=
  subs.foldl (stageValidator fetch) validators

/-- Model of `deleteFeed` from the background script.  The source never
rejects: an unknown id just filters to the same subscription list.  The trace
records the writes in source order — the subscription list is saved FIRST,
then the item partition is removed, then the validator entry is deleted, then
the badge is updated.  The `Except` wrapper mirrors the promise channel the
message handler observes; no code path produces `.error`. -/
def deleteFeed (subs : List Subscription) (validators : ValidatorMap)
    (feedId : String) : Except String (List StorageOp) :=
  .ok [ .saveSubsOp (subs.filter fun s => ¬ s.id = feedId),
        .removeItemsOp feedId,
        .saveValidatorsOp (vErase validators feedId),
        .updateBadgeOp ]

inductive AddError where
  | fetchFailed
  | duplicate
deriving DecidableEq, Repr

structure AddResult where
  error : Option AddError
  ops : List StorageOp
deriving DecidableEq, Repr

/-- Model of `addNewFeed`: fetches first (a fetch failure aborts before any
read or write), then checks for a duplicate url and throws before any write,
and only then persists — subscription record, initial items, validators when
the server returned any, badge.  `ops` is the trace of storage writes
performed before the function returned or threw. -/
def addNewFeed (subs : List Subscription) (validators : ValidatorMap)
    (url : String) (fetchResult : Except Unit FeedData) (newId : String)
    (now : Int) : AddResult :=
  match fetchResult with
  | .error _ => { error := some .fetchFailed, ops := [] }
  | .ok feedData =>
      if subs.any (fun s => s.url = url) then { error := some .duplicate, ops := [] }
      else
        let newSub : Subscription := ⟨newId, url, feedData.title, now⟩
        let subs' := subs ++ [newSub]
        let tagged := tagItems feedData.items newId now
        { error := none,
          ops :=
            [StorageOp.saveSubsOp subs', StorageOp.saveItemsOp newId tagged] ++
            (if hasValidators feedData then
              [StorageOp.saveValidatorsOp (vInsert validators newId
                ⟨feedData.etag, feedData.lastModified, feedData.siteLink⟩)]
            else []) ++
            [StorageOp.updateBadgeOp] }

/-! Association-map lemmas shared by the validator map. -/

theorem assoc_find?_update_self {α : Type} (s : List (String × α)) (k : String) (v : α)
    (h : s.any (fun kv => kv.1 = k) = true) :
    (s.map (fun kv => if kv.1 = k then (k, v) else kv)).find? (fun kv => kv.1 = k) =
      some (k, v) := by
  induction s with
  | nil => simp at h
  | cons kv rest ih =>
    by_cases hk : kv.1 = k
    · simp only [List.map_cons, if_pos hk]
      rw [List.find?_cons_of_pos _ (by simp)]
    · simp only [List.map_cons, if_neg hk]
      rw [List.find?_cons_of_neg _ (by simpa using hk)]
      exact ih (by simpa [List.any_cons, hk] using h)

theorem assoc_find?_update_other {α : Type} (s : List (String × α)) {k other : String}
    (hne : other ≠ k) (v : α) :
    (s.map (fun kv => if kv.1 = k then (k, v) else kv)).find? (fun kv => kv.1 = other) =
      s.find? (fun kv => kv.1 = other) := by
  induction s with
  | nil => rfl
  | cons kv rest ih =>
    by_cases hk : kv.1 = k
    · have hko : ¬ kv.1 = other := by rw [hk]; exact fun h => hne h.symm
      simp only [List.map_cons, if_pos hk]
      rw [List.find?_cons_of_neg _ (by simpa using fun h => hne h.symm),
        List.find?_cons_of_neg _ (by simpa using hko)]
      exact ih
    · simp only [List.map_cons, if_neg hk]
      by_cases hko : kv.1 = other
      · rw [List.find?_cons_of_pos _ (by simpa using hko),
          List.find?_cons_of_pos _ (by simpa using hko)]
      · rw [List.find?_cons_of_neg _ (by simpa using hko),
          List.find?_cons_of_neg _ (by simpa using hko)]
        exact ih

theorem vLookup_vInsert_other (m : ValidatorMap) {k other : String}
    (hne : other ≠ k) (v : ValidatorRec) :
    vLookup (vInsert m k v) other = vLookup m other := by
  unfold vInsert vLookup
  split
  · rw [assoc_find?_update_other m hne v]
  · rw [List.find?_append]
    cases hfind : m.find? (fun kv => kv.1 = other) with
    | some kv => rfl
    | none =>
      simp only [Option.none_or]
      rw [List.find?_cons_of_neg _ (by simpa using fun h => hne h.symm)]
      rfl

theorem vLookup_vErase_self (m : ValidatorMap) (feedId : String) :
    vLookup (vErase m feedId) feedId = none := by
  unfold vErase vLookup
  induction m with
  | nil => rfl
  | cons kv rest ih =>
    rw [List.filter_cons]
    by_cases hk : kv.1 = feedId
    · rw [if_neg (by simp [hk])]
      exact ih
    · rw [if_pos (by simp [hk])]
      rw [List.find?_cons_of_neg _ (by simpa using hk)]
      exact ih

theorem vLookup_vErase_other (m : ValidatorMap) {feedId other : String}
    (hne : other ≠ feedId) : vLookup (vErase m feedId) other = vLookup m other := by
  unfold vErase vLookup
  induction m with
  | nil => rfl
  | cons kv rest ih =>
    rw [List.filter_cons]
    by_cases hk : kv.1 = feedId
    · have hko : ¬ kv.1 = other := by rw [hk]; exact fun h => hne h.symm
      rw [if_neg (by simp [hk])]
      rw [List.find?_cons_of_neg _ (by simpa using hko)]
      exact ih
    · rw [if_pos (by simp [hk])]
      by_cases hko : kv.1 = other
      · rw [List.find?_cons_of_pos _ (by simpa using hko),
          List.find?_cons_of_pos _ (by simpa using hko)]
      · rw [List.find?_cons_of_neg _ (by simpa using hko),
          List.find?_cons_of_neg _ (by simpa using hko)]
        exact ih

/-! Properties of the refresh fold. -/

/-- Marks the single bulk validator write (`ValidatorStore.replaceAll`). -/
def isReplaceAll : StorageOp → Bool
  | .saveValidatorsOp _ => true
  | _ => false

theorem refresh_fold_snd (fetch : Subscription → FetchOutcome) (now : Int) :
    ∀ (subs : List Subscription) (ops : List StorageOp) (v : ValidatorMap),
    (subs.foldl (refreshStep fetch now) (ops, v)).2 =
      subs.foldl (stageValidator fetch) v := by
  intro subs
  induction subs with
  | nil => intro ops v; rfl
  | cons sub rest ih =>
    intro ops v
    simp only [List.foldl_cons]
    cases hf : fetch sub with
    | failure => simpa [refreshStep, stageValidator, hf] using ih ops v
    | notModified => simpa [refreshStep, stageValidator, hf] using ih ops v
    | success fd =>
      simp only [refreshStep, stageValidator, hf]
      split <;> apply ih

theorem refresh_fold_countP (fetch : Subscription → FetchOutcome) (now : Int) :
    ∀ (subs : List Subscription) (acc : List StorageOp × ValidatorMap),
    ((subs.foldl (refreshStep fetch now) acc).1).countP isReplaceAll =
      acc.1.countP isReplaceAll := by
  intro subs
  induction subs with
  | nil => intro acc; rfl
  | cons sub rest ih =>
    intro acc
    simp only [List.foldl_cons]
    rw [ih]
    cases hf : fetch sub with
    | failure => simp [refreshStep, hf]
    | notModified => simp [refreshStep, hf]
    | success fd =>
      simp [refreshStep, hf, List.countP_append, isReplaceAll]

theorem refresh_fold_mono (fetch : Subscription → FetchOutcome) (now : Int) :
    ∀ (subs : List Subscription) (acc : List StorageOp × ValidatorMap)
      (op : StorageOp), op ∈ acc.1 →
      op ∈ (subs.foldl (refreshStep fetch now) acc).1 := by
  intro subs
  induction subs with
  | nil => intro acc op h; exact h
  | cons sub rest ih =>
    intro acc op h
    simp only [List.foldl_cons]
    refine ih _ op ?_
    cases hf : fetch sub with
    | failure => simpa [refreshStep, hf] using h
    | notModified => simpa [refreshStep, hf] using h
    | success fd => simp [refreshStep, hf, List.mem_append, h]

theorem refresh_fold_mem_success (fetch : Subscription → FetchOutcome) (now : Int) :
    ∀ (subs : List Subscription) (acc : List StorageOp × ValidatorMap)
      (sub : Subscription) (fd : FeedData), sub ∈ subs → fetch sub = .success fd →
      StorageOp.saveItemsOp sub.id (tagItems fd.items sub.id now) ∈
        (subs.foldl (refreshStep fetch now) acc).1 := by
  intro subs
  induction subs with
  | nil => intro acc sub fd h; cases h
  | cons sub' rest ih =>
    intro acc sub fd hmem hf
    simp only [List.foldl_cons]
    rcases List.mem_cons.mp hmem with rfl | htail
    · refine refresh_fold_mono fetch now rest _ _ ?_
      simp [refreshStep, hf]
    · exact ih _ sub fd htail hf

theorem refresh_fold_ops_char (fetch : Subscription → FetchOutcome) (now : Int) :
    ∀ (subs : List Subscription) (acc : List StorageOp × ValidatorMap)
      (op : StorageOp), op ∈ (subs.foldl (refreshStep fetch now) acc).1 →
      op ∈ acc.1 ∨ ∃ sub ∈ subs, ∃ fd, fetch sub = .success fd ∧
        op = StorageOp.saveItemsOp sub.id (tagItems fd.items sub.id now) := by
  intro subs
  induction subs with
  | nil => intro acc op h; exact Or.inl h
  | cons sub' rest ih =>
    intro acc op h
    simp only [List.foldl_cons] at h
    rcases ih _ op h with hacc | ⟨sub, hsub, fd, hf, rfl⟩
    · cases hf : fetch sub' with
      | failure =>
        rw [show refreshStep fetch now acc sub' = acc by simp [refreshStep, hf]] at hacc
        exact Or.inl hacc
      | notModified =>
        rw [show refreshStep fetch now acc sub' = acc by simp [refreshStep, hf]] at hacc
        exact Or.inl hacc
      | success fd =>
        have : op ∈ acc.1 ++ [StorageOp.saveItemsOp sub'.id (tagItems fd.items sub'.id now)] := by
          simpa [refreshStep, hf] using hacc
        rcases List.mem_append.mp this with h1 | h1
        · exact Or.inl h1
        · refine Or.inr ⟨sub', by simp, fd, hf, ?_⟩
          simpa using h1
    · exact Or.inr ⟨sub, by simp [hsub], fd, hf, rfl⟩

/-- A subscription whose processing cannot touch the validator entry of
`fid`: either its id differs, or its fetch stages nothing (failure, no-change,
or a response without validators). -/
def stageNeutral (fetch : Subscription → FetchOutcome) (fid : String)
    (sub : Subscription) : Prop :=
  sub.id ≠ fid ∨
    match fetch sub with
    | .success fd => hasValidators fd = false
    | _ => True

theorem stageValidator_lookup_frame {fetch : Subscription → FetchOutcome}
    {fid : String} {sub : Subscription} (h : stageNeutral fetch fid sub)
    (v : ValidatorMap) :
    vLookup (stageValidator fetch v sub) fid = vLookup v fid := by
  unfold stageNeutral at h
  cases hf : fetch sub with
  | failure => simp [stageValidator, hf]
  | notModified => simp [stageValidator, hf]
  | success fd =>
    simp only [hf] at h
    by_cases hv : hasValidators fd = true
    · simp only [stageValidator, hf]
      rw [if_pos hv]
      rcases h with hne | hneutral
      · exact vLookup_vInsert_other v (fun hc => hne hc.symm) _
      · rw [hneutral] at hv
        cases hv
    · simp only [stageValidator, hf]
      rw [if_neg hv]

theorem staged_lookup_frame (fetch : Subscription → FetchOutcome) :
    ∀ (subs : List Subscription) (v : ValidatorMap) (fid : String),
    (∀ sub ∈ subs, stageNeutral fetch fid sub) →
    vLookup (subs.foldl (stageValidator fetch) v) fid = vLookup v fid := by
  intro subs
  induction subs with
  | nil => intro v fid _; rfl
  | cons sub rest ih =>
    intro v fid h
    simp only [List.foldl_cons]
    rw [ih _ fid (fun s hs => h s (by simp [hs]))]
    exact stageValidator_lookup_frame (h sub (by simp)) v

theorem sub_eq_of_nodup_ids {subs : List Subscription} {a b : Subscription}
    (hnd : (subs.map (fun s => s.id)).Nodup) (ha : a ∈ subs) (hb : b ∈ subs)
    (h : a.id = b.id) : a = b :=
  List.inj_on_of_nodup_map hnd ha hb h

/-- Statement of claim C2 over the code model: for every registry (with
distinct feed ids) and every assignment of per-source outcomes, the cycle
performs exactly one bulk validator write carrying the merged working map,
records the completion timestamp, writes items for every successful source,
and a failed source contributes nothing — no item write, no validator
change. -/
def ClaimC2 : Prop :=
  ∀ (subs : List Subscription) (validators : ValidatorMap)
    (fetch : Subscription → FetchOutcome) (now : Int) (nowIso : String),
    (subs.map fun s => s.id).Nodup →
    ((refreshAllFeeds subs validators fetch now nowIso).countP isReplaceAll = 1 ∧
      StorageOp.saveLastRefreshedOp nowIso ∈
        refreshAllFeeds subs validators fetch now nowIso ∧
      (∀ m, StorageOp.saveValidatorsOp m ∈
          refreshAllFeeds subs validators fetch now nowIso →
        m = stagedValidators subs validators fetch) ∧
      (∀ sub ∈ subs, ∀ fd, fetch sub = .success fd →
        StorageOp.saveItemsOp sub.id (tagItems fd.items sub.id now) ∈
          refreshAllFeeds subs validators fetch now nowIso) ∧
      (∀ sub ∈ subs, fetch sub = .failure →
        (∀ its, StorageOp.saveItemsOp sub.id its ∉
          refreshAllFeeds subs validators fetch now nowIso) ∧
        vLookup (stagedValidators subs validators fetch) sub.id =
          vLookup validators sub.id))

/-- Counterexample to C2 as stated: with an empty registry the source returns
before the commit phase — no `replaceAll`, no badge, no completion timestamp
is ever written, so "performs exactly one `replaceAll` … and records the
cycle's completion timestamp" fails for the empty set of subscriptions. -/
theorem refreshAllFeeds_cycle_cex : ¬ ClaimC2 := by
  intro h
  obtain ⟨h1, -⟩ := h [] [] (fun _ => FetchOutcome.failure) 0 "2024-01-01T00:00:00Z"
    (by simp)
  simp [refreshAllFeeds] at h1

/-- C2 (amended).  For a non-empty registry with distinct feed ids and any
per-source outcomes: per-source failures are absorbed at the source boundary
(the cycle is a total function of the outcomes and always reaches its commit
phase), items are written for every successful source, exactly one bulk
validator write happens and it carries the merged working map, the completion
timestamp is recorded, and a failed source contributes no item write and no
validator change.  With an empty registry the source returns early and writes
nothing. -/
theorem refreshAllFeeds_cycle (subs : List Subscription) (validators : ValidatorMap)
    (fetch : Subscription → FetchOutcome) (now : Int) (nowIso : String)
    (hne : subs ≠ []) (hnd : (subs.map fun s => s.id).Nodup) :
    (refreshAllFeeds subs validators fetch now nowIso).countP isReplaceAll = 1 ∧
    StorageOp.saveLastRefreshedOp nowIso ∈
      refreshAllFeeds subs validators fetch now nowIso ∧
    (∀ m, StorageOp.saveValidatorsOp m ∈
        refreshAllFeeds subs validators fetch now nowIso →
      m = stagedValidators subs validators fetch) ∧
    (∀ sub ∈ subs, ∀ fd, fetch sub = .success fd →
      StorageOp.saveItemsOp sub.id (tagItems fd.items sub.id now) ∈
        refreshAllFeeds subs validators fetch now nowIso) ∧
    (∀ sub ∈ subs, fetch sub = .failure →
      (∀ its, StorageOp.saveItemsOp sub.id its ∉
        refreshAllFeeds subs validators fetch now nowIso) ∧
      vLookup (stagedValidators subs validators fetch) sub.id =
        vLookup validators sub.id) := by
  have ht : refreshAllFeeds subs validators fetch now nowIso =
      (subs.foldl (refreshStep fetch now) ([], validators)).1 ++
      [.saveValidatorsOp (subs.foldl (refreshStep fetch now) ([], validators)).2,
       .updateBadgeOp, .saveLastRefreshedOp nowIso] := by
    unfold refreshAllFeeds
    rw [if_neg hne]
  refine ⟨?_, ?_, ?_, ?_, ?_⟩
  · rw [ht, List.countP_append, refresh_fold_countP]
    simp [isReplaceAll, List.countP_cons]
  · rw [ht]
    simp
  · intro m hm
    rw [ht] at hm
    rcases List.mem_append.mp hm with hl | hr
    · rcases refresh_fold_ops_char fetch now subs _ _ hl with hacc | ⟨_, _, _, _, heq⟩
      · simp at hacc
      · cases heq
    · have hsnd := refresh_fold_snd fetch now subs [] validators
      simp only [List.mem_cons, List.not_mem_nil, or_false] at hr
      rcases hr with h1 | h1 | h1
      · cases h1
        rw [hsnd]
        rfl
      · cases h1
      · cases h1
  · intro sub hsub fd hf
    rw [ht]
    exact List.mem_append.mpr
      (Or.inl (refresh_fold_mem_success fetch now subs _ sub fd hsub hf))
  · intro sub hsub hf
    constructor
    · intro its hmem
      rw [ht] at hmem
      rcases List.mem_append.mp hmem with hl | hr
      · rcases refresh_fold_ops_char fetch now subs _ _ hl with hacc | ⟨sub', hsub', fd, hf', heq⟩
        · simp at hacc
        · have hid : sub.id = sub'.id := by
            injection heq
          have : sub' = sub := sub_eq_of_nodup_ids hnd hsub' hsub hid.symm
          rw [this] at hf'
          rw [hf] at hf'
          cases hf'
      · simp at hr
    · unfold stagedValidators
      refine staged_lookup_frame fetch subs validators sub.id ?_
      intro sub' hsub'
      by_cases hid : sub'.id = sub.id
      · have : sub' = sub := sub_eq_of_nodup_ids hnd hsub' hsub hid
        rw [this]
        unfold stageNeutral
        rw [hf]
        exact Or.inr trivial
      · exact Or.inl hid

/-- Concrete three-source registry where source 2 always fails, used by the
C2 witness. -/
def wSub (n : String) : Subscription := ⟨n, "https://" ++ n, n, 0⟩

def wFeed : FeedData :=
  { title := "t1", etag := some "v1", lastModified := none, siteLink := none,
    items := [mkItem "i1" 5] }

def wFetch : Subscription → FetchOutcome := fun sub =>
  if sub.id = "f1" then .success wFeed
  else if sub.id = "f2" then .failure
  else .notModified

def wSubs : List Subscription := [wSub "f1", wSub "f2", wSub "f3"]

def wVals : ValidatorMap := [("f2", ⟨some "old", none, none⟩)]

theorem refreshAllFeeds_cycle_witness :
    (refreshAllFeeds wSubs wVals wFetch 0 "iso").countP isReplaceAll = 1 ∧
    StorageOp.saveLastRefreshedOp "iso" ∈ refreshAllFeeds wSubs wVals wFetch 0 "iso" ∧
    StorageOp.saveItemsOp "f1" (tagItems wFeed.items "f1" 0) ∈
      refreshAllFeeds wSubs wVals wFetch 0 "iso" ∧
    vLookup (stagedValidators wSubs wVals wFetch) "f2" = vLookup wVals "f2" := by
  obtain ⟨h1, h2, h3, h4, h5⟩ :=
    refreshAllFeeds_cycle wSubs wVals wFetch 0 "iso" (by decide) (by decide)
  refine ⟨h1, h2, ?_, ?_⟩
  · have := h4 (wSub "f1") (by decide) wFeed (by decide)
    simpa using this
  · exact (h5 (wSub "f2") (by decide) (by decide)).2

/-! ## C6: `deleteFeed` -/

/-- First half of claim C6: an unknown feedId makes the call fail. -/
def ClaimC6NotFound : Prop :=
  ∀ (subs : List Subscription) (v : ValidatorMap) (fid : String),
    fid ∉ subs.map (fun s => s.id) → (deleteFeed subs v fid).isOk = false

/-- Second half of claim C6: the Subscription record is removed last, after
the partition and validator deletions. -/
def ClaimC6RemovesLast : Prop :=
  ∀ (subs : List Subscription) (v : ValidatorMap) (fid : String) (t : List StorageOp),
    fid ∈ subs.map (fun s => s.id) → deleteFeed subs v fid = .ok t →
    ∃ pre, t = pre ++ [.saveSubsOp (subs.filter fun s => ¬ s.id = fid)] ∧
      StorageOp.removeItemsOp fid ∈ pre ∧
      StorageOp.saveValidatorsOp (vErase v fid) ∈ pre

def ClaimC6 : Prop := ClaimC6NotFound ∧ ClaimC6RemovesLast

/-- Counterexample to C6: deleting an unknown feed id succeeds (the source has
no not-found check — the filter is a no-op and the promise resolves), and for
a known id the subscription list is written FIRST, not last (the trace ends
with the badge update, not the subscription write). -/
theorem deleteFeed_cex : ¬ ClaimC6NotFound ∧ ¬ ClaimC6RemovesLast := by
  constructor
  · intro h
    have := h [wSub "f1"] [] "zz" (by decide)
    simp [deleteFeed, Except.isOk, Except.toBool] at this
  · intro h
    obtain ⟨pre, hpre, -, -⟩ :=
      h [wSub "f1"] []
        "f1" [.saveSubsOp [], .removeItemsOp "f1", .saveValidatorsOp [], .updateBadgeOp]
        (by decide) rfl
    have hlast := congrArg List.getLast? hpre
    rw [List.getLast?_concat] at hlast
    simp at hlast

/-- C6 (amended).  `deleteFeed` never fails — an unknown feedId filters to an
unchanged subscription list and the call still reports success — and the
Subscription record is removed FIRST: the trace starts with the subscription
write and the partition removal and validator-entry deletion follow it.  The
erased validator map has no entry for the feed and every other entry is
untouched. -/
theorem deleteFeed_behavior (subs : List Subscription) (v : ValidatorMap)
    (fid : String) :
    (deleteFeed subs v fid).isOk = true ∧
    (∀ t, deleteFeed subs v fid = .ok t →
      t.head? = some (.saveSubsOp (subs.filter fun s => ¬ s.id = fid)) ∧
      StorageOp.removeItemsOp fid ∈ t.tail ∧
      StorageOp.saveValidatorsOp (vErase v fid) ∈ t.tail ∧
      vLookup (vErase v fid) fid = none ∧
      ∀ other, other ≠ fid → vLookup (vErase v fid) other = vLookup v other) := by
  refine ⟨rfl, ?_⟩
  intro t ht
  have ht' : t = [.saveSubsOp (subs.filter fun s => ¬ s.id = fid),
      .removeItemsOp fid, .saveValidatorsOp (vErase v fid), .updateBadgeOp] := by
    cases ht
    rfl
  subst ht'
  refine ⟨rfl, by simp, by simp, vLookup_vErase_self v fid, ?_⟩
  intro other hne
  exact vLookup_vErase_other v hne

theorem deleteFeed_behavior_witness :
    (deleteFeed [wSub "f1"] wVals "f1").isOk = true ∧
    vLookup (vErase wVals "f1") "f1" = none ∧
    vLookup (vErase wVals "f1") "f2" = vLookup wVals "f2" := by
  obtain ⟨h1, h2⟩ := deleteFeed_behavior [wSub "f1"] wVals "f1"
  have h3 := h2 _ rfl
  exact ⟨h1, h3.2.2.2.1, h3.2.2.2.2 "f2" (by decide)⟩

/-! ## C7: `addNewFeed` -/

/-- First half of claim C7: a url already in the registry always fails with
the duplicate error and leaves persisted state untouched. -/
def ClaimC7Dup : Prop :=
  ∀ (subs : List Subscription) (v : ValidatorMap) (url : String)
    (fr : Except Unit FeedData) (newId : String) (now : Int),
    url ∈ subs.map (fun s => s.url) →
    (addNewFeed subs v url fr newId now).error = some .duplicate ∧
    (addNewFeed subs v url fr newId now).ops = []

/-- Second half of claim C7: on any failure no write happens (in particular no
Subscription record is created). -/
def ClaimC7NoPartial : Prop :=
  ∀ (subs : List Subscription) (v : ValidatorMap) (url : String)
    (fr : Except Unit FeedData) (newId : String) (now : Int),
    (addNewFeed subs v url fr newId now).error.isSome →
    (addNewFeed subs v url fr newId now).ops = []

def ClaimC7 : Prop := ClaimC7Dup ∧ ClaimC7NoPartial

/-- Counterexample to C7 as stated: the source fetches BEFORE the duplicate
check, so adding an already-registered url whose fetch fails reports the
fetch error, not the duplicate error. -/
theorem addNewFeed_cex : ¬ ClaimC7 := by
  intro hc
  have := (hc.1 [wSub "f1"] [] "https://f1" (.error ()) "n1" 0 (by decide)).1
  simp [addNewFeed] at this

/-- C7 (amended).  When the initial fetch succeeds, adding a duplicate url
fails with the duplicate error and performs no write; when the fetch fails,
the call fails with the fetch error; and on every failure path no storage
write at all has happened — no Subscription record, no items, no validator
entry. -/
theorem addNewFeed_failure_no_side_effects (subs : List Subscription)
    (v : ValidatorMap) (url : String) (fd : FeedData) (fr : Except Unit FeedData)
    (newId : String) (now : Int) :
    (url ∈ subs.map (fun s => s.url) →
      (addNewFeed subs v url (.ok fd) newId now).error = some .duplicate ∧
      (addNewFeed subs v url (.ok fd) newId now).ops = []) ∧
    ((addNewFeed subs v url fr newId now).error.isSome →
      (addNewFeed subs v url fr newId now).ops = []) := by
  constructor
  · intro hmem
    rcases List.mem_map.mp hmem with ⟨s, hs, rfl⟩
    have hany : subs.any (fun s' => s'.url = s.url) = true :=
      List.any_eq_true.mpr ⟨s, hs, by simp⟩
    simp only [addNewFeed]
    rw [if_pos hany]
    exact ⟨rfl, rfl⟩
  · intro herr
    cases fr with
    | error e => rfl
    | ok fd' =>
      simp only [addNewFeed] at herr ⊢
      split at herr
      · rename_i hany
        rw [if_pos hany]
      · simp at herr

theorem addNewFeed_failure_witness :
    (addNewFeed [wSub "f1"] [] "https://f1" (.ok wFeed) "n1" 0).error =
      some .duplicate ∧
    (addNewFeed [wSub "f1"] [] "https://f1" (.ok wFeed) "n1" 0).ops = [] ∧
    (addNewFeed [wSub "f1"] [] "https://f1" (.error ()) "n1" 0).ops = [] := by
  obtain ⟨h1, h2⟩ := addNewFeed_failure_no_side_effects [wSub "f1"] []
    "https://f1" wFeed (.error ()) "n1" 0
  obtain ⟨ha, hb⟩ := h1 (by decide)
  exact ⟨ha, hb, h2 (by decide)⟩

/-! ## Normalizer (`fetcher.js`)

Model of the `fast-xml-parser` output consumed by `parseRSS2` / `parseAtom` /
`parseRSS1`.  A text element parses to a plain string when it carries no
attributes and to an object with a `#text` entry otherwise; `XVal` captures
exactly that distinction (numeric text nodes are modelled as their string
form). -/

inductive XVal where
  | str (s : String)
  | node (text : Option String)
deriving DecidableEq, Repr

/-- Model of the `getText` helper: empty string for a missing or falsy value,
the `#text` entry (or `''`) for an attributed node, the string itself
otherwise. -/
def getText : Option XVal → String
  | none => ""
  | some (.str s) => s
  | some (.node t) => t.getD ""

/-- Value of `x?.['#text']`: only an attributed node exposes `#text`; indexing
a plain string with `'#text'` yields `undefined`. -/
def guidText : Option XVal → Option String
  | some (.node (some t)) => some t
  | _ => none

/-- JS `a || b` where `a` is an optional string and `b` a string. -/
def jsOrOpt (a : Option String) (b : String) : String :=
  match a with
  | some s => if s = "" then b else s
  | none => b

/-- JS `a || b` on two optional strings. -/
def jsOrStrOpt (a b : Option String) : Option String :=
  match a with
  | some s => if s = "" then b else some s
  | none => b

/-- JS `a || b` on parsed XML values: `undefined` and the empty string are
falsy, any object (even with empty `#text`) is truthy. -/
def jsOrX (a b : Option XVal) : Option XVal :=
  match a with
  | none => b
  | some (.str s) => if s = "" then b else some (.str s)
  | some v => some v

/-- One normalized article as produced by the fetcher. -/
structure FeedItem where
  id : String
  title : String
  link : Option String
  content : String
  pubDate : Option String
  read : Bool
deriving DecidableEq, Repr

structure RSS2Item where
  guid : Option XVal
  title : Option XVal
  link : Option String
  descr : Option XVal
  contentEncoded : Option XVal
  pubDate : Option String
deriving DecidableEq, Repr

structure RSS2Doc where
  title : Option XVal
  descr : Option XVal
  items : List RSS2Item
deriving DecidableEq, Repr

/-- Per-item normalization of `parseRSS2`:
`id: item.guid?.['#text'] || item.link || getText(item.title)`. -/
def parseRSS2Item (item : RSS2Item) : FeedItem :=
  { id := jsOrOpt (guidText item.guid) (jsOrOpt item.link (getText item.title)),
    title := getText item.title,
    link := item.link,
    content := getText (jsOrX item.contentEncoded item.descr),
    pubDate := item.pubDate,
    read := false }

structure AtomLink where
  rel : Option String
  href : Option String
deriving DecidableEq, Repr

/-- `entry.link` can be absent, one object, or an array of objects. -/
inductive AtomLinkVal where
  | absent
  | one (l : AtomLink)
  | many (ls : List AtomLink)
deriving DecidableEq, Repr

structure AtomEntry where
  id : Option XVal
  title : Option XVal
  link : AtomLinkVal
  content : Option XVal
  summary : Option XVal
  updated : Option String
  published : Option String
deriving DecidableEq, Repr

structure AtomDoc where
  title : Option XVal
  entries : List AtomEntry
deriving DecidableEq, Repr

/-- Link resolution of `parseAtom`: for an array, the first link whose `rel`
is `'alternate'` or falsy; otherwise the single link's `href`. -/
def atomLinkOf : AtomLinkVal → Option String
  | .absent => none
  | .one l => l.href
  | .many ls =>
      match ls.find? (fun l => l.rel = some "alternate" || !(truthy l.rel)) with
      | some l => l.href
      | none => none

/-- Per-entry normalization of `parseAtom`: `id: getText(entry.id)` — note:
no fallback to link or title. -/
def parseAtomEntry (e : AtomEntry) : FeedItem :=
  { id := getText e.id,
    title := getText e.title,
    link := atomLinkOf e.link,
    content := getText (jsOrX e.content e.summary),
    pubDate := jsOrStrOpt e.updated e.published,
    read := false }

structure RSS1Item where
  title : Option XVal
  link : Option String
  descr : Option XVal
  dcDate : Option String
deriving DecidableEq, Repr

structure RSS1Doc where
  title : Option XVal
  items : List RSS1Item
deriving DecidableEq, Repr

/-- Per-item normalization of `parseRSS1`: `id: item.link || getText(item.title)`. -/
def parseRSS1Item (item : RSS1Item) : FeedItem :=
  { id := jsOrOpt item.link (getText item.title),
    title := getText item.title,
    link := item.link,
    content := getText item.descr,
    pubDate := item.dcDate,
    read := false }

structure NormalizedFeed where
  title : String
  description : Option String
  items : List FeedItem
deriving DecidableEq, Repr

def parseRSS2 (doc : RSS2Doc) : NormalizedFeed :=
  { title := getText doc.title,
    description := some (getText doc.descr),
    items := doc.items.map parseRSS2Item }

def parseAtom (doc : AtomDoc) : NormalizedFeed :=
  { title := getText doc.title,
    description := none,
    items := doc.entries.map parseAtomEntry }

def parseRSS1 (doc : RSS1Doc) : NormalizedFeed :=
  { title := getText doc.title,
    description := none,
    items := doc.items.map parseRSS1Item }

/-! ## C1: the conditional GET that is not there -/

structure HttpRequest where
  url : String
  headers : List (String × String)
deriving DecidableEq, Repr

set_option linter.unusedVariables false in
/-- Request issued by `fetchFeed` in the checked-in `fetcher.js`: the source
calls `fetch(url)` with no request init, so no `If-None-Match` /
`If-Modified-Since` precondition is ever attached.  The validator the
background script passes (`fetchFeed(sub.url, validator)`) is not even a
parameter of the function and cannot influence the request. -/
def fetchFeedRequest (url : String) (validator : ValidatorRec) : HttpRequest :=
  { url := url, headers := [] }

/-- Parsed document root as returned by `parser.parse`. -/
structure ParsedDoc where
  rss : Option RSS2Doc
  feed : Option AtomDoc
  rdf : Option RSS1Doc
deriving DecidableEq, Repr

structure HttpResponse where
  ok : Bool
  status : Nat
  body : ParsedDoc
deriving DecidableEq, Repr

inductive FetchError where
  | httpStatus (status : Nat)
  | unknownFormat
deriving DecidableEq, Repr

/-- Model of `fetchFeed` past the network call: any non-ok status throws —
`response.ok` is false for 304 Not Modified, so a conditional revalidation
response would throw rather than yield a no-change sentinel — then the body is
dispatched on its root container in priority order rss → feed → rdf:RDF, and
an unrecognized root throws `Unknown feed format`. -/
def fetchFeedRespond (resp : HttpResponse) : Except FetchError NormalizedFeed :=
  if !resp.ok then .error (.httpStatus resp.status)
  else
    match resp.body.rss with
    | some rss2 => .ok (parseRSS2 rss2)
    | none =>
      match resp.body.feed with
      | some feed => .ok (parseAtom feed)
      | none =>
        match resp.body.rdf with
        | some rdf => .ok (parseRSS1 rdf)
        | none => .error .unknownFormat

/-- C1 (the code contradicts the claim, its own README and its caller): with a
cached validator present, the issued request is identical to the
unconditional one — it carries no precondition headers at all — and a
"not modified" response makes `fetchFeed` throw an HTTP-status error instead
of returning the `NO_CHANGE` sentinel. -/
theorem fetchFeed_no_conditional_get :
    fetchFeedRequest "https://example.com/feed" ⟨some "v1", some "lm", none⟩ =
      fetchFeedRequest "https://example.com/feed" ⟨none, none, none⟩ ∧
    (fetchFeedRequest "https://example.com/feed" ⟨some "v1", some "lm", none⟩).headers = [] ∧
    fetchFeedRespond { ok := false, status := 304, body := ⟨none, none, none⟩ } =
      .error (.httpStatus 304) :=
  ⟨rfl, rfl, rfl⟩

/-! ## C8: id derivation priority -/

/-- Claim-side reading of a native identifier field's value: the string for a
bare text node, the `#text` for an attributed node. -/
def xvalText : Option XVal → Option String
  | none => none
  | some (.str s) => some s
  | some (.node t) => t

/-- Claim C8 for the RSS 2.0 dialect: native guid when present, else link,
else title. -/
def ClaimC8RSS2 : Prop :=
  ∀ item : RSS2Item,
    (parseRSS2Item item).id =
      jsOrOpt (xvalText item.guid) (jsOrOpt item.link (getText item.title))

/-- Claim C8 for the Atom dialect: native id when present, else link, else
title. -/
def ClaimC8Atom : Prop :=
  ∀ e : AtomEntry,
    (parseAtomEntry e).id =
      jsOrOpt (xvalText e.id) (jsOrOpt (atomLinkOf e.link) (getText e.title))

/-- Claim C8 for the RSS 1.0 dialect (no native id field is consulted):
link, else title. -/
def ClaimC8RSS1 : Prop :=
  ∀ item : RSS1Item,
    (parseRSS1Item item).id = jsOrOpt item.link (getText item.title)

def ClaimC8 : Prop := ClaimC8RSS2 ∧ ClaimC8Atom ∧ ClaimC8RSS1

/-- RSS2 item whose `<guid>` carries no attributes, so `fast-xml-parser`
returns it as a bare string. -/
def bareGuidItem : RSS2Item :=
  { guid := some (.str "g1"), title := some (.str "T"), link := some "L",
    descr := none, contentEncoded := none, pubDate := none }

/-- Atom entry without an `<id>` element but with a link and a title. -/
def noIdEntry : AtomEntry :=
  { id := none, title := some (.str "T"),
    link := .one { rel := none, href := some "https://x/1" },
    content := none, summary := none, updated := none, published := none }

/-- Counterexample to C8: a bare-string RSS2 guid is present yet skipped
(`item.guid?.['#text']` is `undefined` on a string), so the id falls through
to the link; and an Atom entry without an id gets the empty string — the
claimed fallback to link/title does not exist for Atom. -/
theorem parse_id_priority_cex : ¬ ClaimC8RSS2 ∧ ¬ ClaimC8Atom := by
  constructor
  · intro h
    have := h bareGuidItem
    simp [parseRSS2Item, bareGuidItem, guidText, xvalText, jsOrOpt, getText] at this
  · intro h
    have := h noIdEntry
    simp [parseAtomEntry, noIdEntry, xvalText, jsOrOpt, getText, atomLinkOf] at this

/-- C8 (amended).  Id derivation as implemented, per dialect: RSS 2.0 uses the
guid's `#text` when the guid parses as an attributed node and its text is
non-empty — a bare-string guid is skipped — then the link when non-empty, then
the title; Atom uses the entry id's text only, yielding the empty string when
absent, with no fallback to link or title; RSS 1.0 uses the link when
non-empty, else the title. -/
theorem parse_id_priority (item : RSS2Item) (e : AtomEntry) (ri : RSS1Item) :
    (∀ t, guidText item.guid = some t → t ≠ "" → (parseRSS2Item item).id = t) ∧
    (∀ s, item.guid = some (.str s) →
      (parseRSS2Item item).id = jsOrOpt item.link (getText item.title)) ∧
    (∀ l, guidText item.guid = none → item.link = some l → l ≠ "" →
      (parseRSS2Item item).id = l) ∧
    (guidText item.guid = none → item.link = none →
      (parseRSS2Item item).id = getText item.title) ∧
    ((parseAtomEntry e).id = getText e.id) ∧
    (e.id = none → (parseAtomEntry e).id = "") ∧
    (∀ l, ri.link = some l → l ≠ "" → (parseRSS1Item ri).id = l) ∧
    (ri.link = none → (parseRSS1Item ri).id = getText ri.title) := by
  refine ⟨?_, ?_, ?_, ?_, rfl, ?_, ?_, ?_⟩
  · intro t ht hne
    simp [parseRSS2Item, ht, jsOrOpt, hne]
  · intro s hg
    simp [parseRSS2Item, hg, guidText, jsOrOpt]
  · intro l hg hl hne
    simp [parseRSS2Item, hg, hl, jsOrOpt, hne]
  · intro hg hl
    simp [parseRSS2Item, hg, hl, jsOrOpt]
  · intro hid
    simp [parseAtomEntry, hid, getText]
  · intro l hl hne
    simp [parseRSS1Item, hl, jsOrOpt, hne]
  · intro hl
    simp [parseRSS1Item, hl, jsOrOpt]

/-- RSS2 item with an attributed guid, as in `<guid isPermaLink="false">`. -/
def attrGuidItem : RSS2Item :=
  { guid := some (.node (some "tag:site,1")), title := some (.str "T"),
    link := some "L", descr := none, contentEncoded := none, pubDate := none }

def plainRSS1Item : RSS1Item :=
  { title := some (.str "T1"), link := some "https://x/2", descr := none,
    dcDate := none }

theorem parse_id_priority_witness :
    (parseRSS2Item attrGuidItem).id = "tag:site,1" ∧
    (parseAtomEntry noIdEntry).id = "" ∧
    (parseRSS1Item plainRSS1Item).id = "https://x/2" := by
  obtain ⟨h1, -, -, -, -, h6, h7, -⟩ :=
    parse_id_priority attrGuidItem noIdEntry plainRSS1Item
  exact ⟨h1 "tag:site,1" (by decide) (by decide),
    h6 (by decide), h7 "https://x/2" (by decide) (by decide)⟩

/-! ## OPML import/export (`opml.js`)

The XML layer is modelled away: `XMLBuilder`/`XMLParser` round-trip attribute
strings exactly (attribute values are not type-coerced under the options in
use, and special characters are escaped on build and unescaped on parse), and
the parser's collapse of a one-element child array into a single object is
observationally irrelevant here because `parseOPML` normalizes both shapes
with `Array.isArray` before traversing.  So the composition of export with
the subsequent parse is modelled directly on the outline tree. -/

structure OPMLOutline where
  text : Option String
  title : Option String
  outlineType : Option String
  xmlUrl : Option String
  htmlUrl : Option String
  children : List OPMLOutline
deriving Repr

structure OPMLFeed where
  title : String
  url : String
deriving DecidableEq, Repr

/-- The `traverse` closure of `parseOPML`: a node contributes a feed when its
`xmlUrl` attribute is truthy — titled by `@_title || @_text || 'Untitled'` —
and its child outlines (folders) are then flattened recursively, in document
order. -/
def traverseOutlines : List OPMLOutline → List OPMLFeed
  | [] => []
  | n :: rest =>
    (match n.xmlUrl with
     | some u => if u = "" then [] else
        [{ title := jsOrOpt n.title (jsOrOpt n.text "Untitled"), url := u }]
     | none => []) ++ traverseOutlines n.children ++ traverseOutlines rest
termination_by l => sizeOf l
decreasing_by
  · cases n
    simp
    omega
  · simp

/-- Model of `parseOPML` applied to the body's outline list. -/
def parseOPML (outlines : List OPMLOutline) : List OPMLFeed :=
  traverseOutlines outlines

/-- Model of `generateOPML`: one folder node wrapping one leaf per
subscription, each leaf carrying the title as both `@_text` and `@_title` and
the url as both `@_xmlUrl` and `@_htmlUrl`. -/
def generateOPML (subs : List Subscription) : OPMLOutline :=
  { text := some "SimpleReader Feeds", title := some "SimpleReader Feeds",
    outlineType := none, xmlUrl := none, htmlUrl := none,
    children := subs.map fun sub =>
      { text := some sub.title, title := some sub.title,
        outlineType := some "rss", xmlUrl := some sub.url,
        htmlUrl := some sub.url, children := [] } }

/-- A folder with no feed url of its own, wrapping one child. -/
def wrapFolder (n : OPMLOutline) : OPMLOutline :=
  { text := some "folder", title := some "folder", outlineType := none,
    xmlUrl := none, htmlUrl := none, children := [n] }

/-- First half of claim C9: parsing the exported document returns exactly the
subscription list's ordered title/url pairs, for every subscription list. -/
def ClaimC9RoundTrip : Prop :=
  ∀ subs : List Subscription,
    parseOPML [generateOPML subs] =
      subs.map fun s => { title := s.title, url := s.url }

/-- Second half of claim C9: nesting a document under arbitrarily many folder
levels leaves its flattened feed list unchanged. -/
def ClaimC9Flatten : Prop :=
  ∀ (node : OPMLOutline) (k : Nat),
    parseOPML [wrapFolder^[k] node] = parseOPML [node]

def ClaimC9 : Prop := ClaimC9RoundTrip ∧ ClaimC9Flatten

/-- Counterexample to C9: a subscription with an empty title comes back as
`'Untitled'` (the `@_title || @_text || 'Untitled'` chain), and a
subscription with an empty url is dropped entirely (`@_xmlUrl` is falsy), so
the round trip is not exact on every subscription list. -/
theorem opml_round_trip_cex :
    ¬ ClaimC9 ∧
    parseOPML [generateOPML [⟨"id1", "https://x/feed", "", 0⟩]] =
      [{ title := "Untitled", url := "https://x/feed" }] ∧
    parseOPML [generateOPML [⟨"id1", "", "T", 0⟩]] = [] := by
  refine ⟨?_, ?_, ?_⟩
  · intro hc
    have := hc.1 [⟨"id1", "https://x/feed", "", 0⟩]
    simp [parseOPML, generateOPML, traverseOutlines, jsOrOpt] at this
  · simp [parseOPML, generateOPML, traverseOutlines, jsOrOpt]
  · simp [parseOPML, generateOPML, traverseOutlines, jsOrOpt]

/-- C9 (amended).  The round trip is exact for every subscription list whose
titles and urls are all non-empty; in general an empty title is replaced by
`'Untitled'` and an empty url drops the entry.  Flattening is insensitive to
arbitrary folder nesting. -/
theorem traverseOutlines_leaves (subs : List Subscription)
    (h : ∀ s ∈ subs, s.title ≠ "" ∧ s.url ≠ "") :
    traverseOutlines (subs.map fun sub =>
      ({ text := some sub.title, title := some sub.title, outlineType := some "rss",
         xmlUrl := some sub.url, htmlUrl := some sub.url,
         children := [] } : OPMLOutline)) =
      subs.map fun s => { title := s.title, url := s.url } := by
  induction subs with
  | nil => simp [traverseOutlines]
  | cons s rest ih =>
    obtain ⟨ht, hu⟩ := h s (by simp)
    simp only [List.map_cons, traverseOutlines]
    rw [if_neg hu, ih (fun x hx => h x (by simp [hx]))]
    simp [jsOrOpt, ht, traverseOutlines]

theorem opml_round_trip (subs : List Subscription) (node : OPMLOutline) (k : Nat)
    (h : ∀ s ∈ subs, s.title ≠ "" ∧ s.url ≠ "") :
    parseOPML [generateOPML subs] =
      (subs.map fun s => { title := s.title, url := s.url }) ∧
    parseOPML [wrapFolder^[k] node] = parseOPML [node] := by
  constructor
  · show traverseOutlines [generateOPML subs] = _
    have hfold : traverseOutlines [generateOPML subs] =
        traverseOutlines ((generateOPML subs).children) := by
      simp [traverseOutlines, generateOPML]
    rw [hfold]
    exact traverseOutlines_leaves subs h
  · induction k with
    | zero => rfl
    | succ k ihk =>
      rw [Function.iterate_succ_apply']
      show traverseOutlines [wrapFolder (wrapFolder^[k] node)] = _
      have hfold : traverseOutlines [wrapFolder (wrapFolder^[k] node)] =
          traverseOutlines [wrapFolder^[k] node] := by
        simp [traverseOutlines, wrapFolder]
      rw [hfold]
      exact ihk

def wSubList : List Subscription := [⟨"id1", "https://x/feed", "Feed One", 0⟩]

theorem opml_round_trip_witness :
    parseOPML [generateOPML wSubList] =
      [{ title := "Feed One", url := "https://x/feed" }] ∧
    parseOPML [wrapFolder^[3] (generateOPML wSubList)] =
      parseOPML [generateOPML wSubList] := by
  obtain ⟨h1, h2⟩ := opml_round_trip wSubList (generateOPML wSubList) 3 (by decide)
  exact ⟨h1, h2⟩

end SimpleReader
